import Mathlib

/-!
Verification of the ofs-convert FAT32-to-ext4 in-place converter core.

This file embeds the C++ sources (extent-allocator.cpp, fat.cpp, ext4.cpp,
ext4_bg.cpp, ext4_dentry.cpp, tree_builder.cpp, util.h, and the traversal /
fragmentation translation unit) shallowly in Lean: machine integers become
Nat (all quantities stay far below their 2^32 / 2^16 moduli in the states the
theorems range over; where an overflow could be observable it is modelled with
an explicit mod), byte-array state becomes explicit functional state, while
loops become fuelled recursion returning Option (none models a fatal exit(1)
or fuel exhaustion), and the process-global allocator singleton becomes an
explicit record threaded through every call.
-/

/-- Source: fat.h. Constant FAT_START_INDEX: index in the FAT of the first
data cluster. -/
def FAT_START_INDEX : Nat := 2

/-- Source: fat.h. Mask selecting the meaningful low 28 bits of a FAT entry. -/
def CLUSTER_ENTRY_MASK : Nat := 0x0FFFFFFF

/-- Source: fat.h. FAT entry value of a free cluster. -/
def FREE_CLUSTER : Nat := 0

/-- Source: fat.h. Least FAT entry value marking end-of-chain. -/
def FAT_END_OF_CHAIN : Nat := 0x0FFFFFF8

/-- Source: fat.h. Number of UCS-2 units carried by one LFN directory entry. -/
def LFN_ENTRY_LENGTH : Nat := 13

/-- Source: ext4_extent.h. Maximum length of an initialized ext4 extent. -/
def EXT4_MAX_INIT_EXTENT_LEN : Nat := 32768

/-- Source: tree_builder.h. Maximum ext4 file name length in bytes. -/
def EXT4_NAME_LEN : Nat := 255

/-- Source: fat.h, struct fat_extent. The three fields are uint32, uint16,
uint32 in C; they are modelled as Nat. -/
structure fat_extent where
  logical_start : Nat
  length : Nat
  physical_start : Nat
deriving Repr, DecidableEq

/-- One past the last physical cluster covered by the extent
(written physical_start + length throughout the C sources). -/
def fat_extent.pEnd (e : fat_extent) : Nat :=
  e.physical_start + e.length

/-- Source: fat.h, struct fat_dentry. Only the attribute byte is relevant to
the classification functions verified here; the name / time / cluster fields
do not enter any claim about fat.cpp and are omitted. -/
structure fat_dentry where
  attrs : Nat
deriving Repr, DecidableEq

/-- Source: fat.cpp, is_free_cluster: the entry masked to its low 28 bits is
compared against FREE_CLUSTER. -/
def is_free_cluster (cluster_entry : Nat) : Bool :=
  (cluster_entry &&& CLUSTER_ENTRY_MASK) == FREE_CLUSTER

/-- Source: fat.cpp, is_lfn: returns the C truthiness of
dentry->attrs & 0x0F, i.e. true iff the low nibble of the attribute byte is
nonzero. -/
def is_lfn (dentry : fat_dentry) : Bool :=
  (dentry.attrs &&& 0x0F) != 0

/-- Source: fat.cpp, is_dir: bit 4 of the attribute byte. -/
def is_dir (dentry : fat_dentry) : Bool :=
  (dentry.attrs &&& 0x10) != 0

/-! ## aggregate_extents (traversal translation unit)

The FAT is modelled as a total function from cluster number to the raw
32-bit entry value. aggregate_extents walks the chain starting at a cluster
and hands each closed extent to find_blocked_extent_fragments; the claims
about the closing logic concern those closed extents, so the loop below
collects them in a list (the fragmentation/relocation step is embedded and
verified separately, on its own state). The while loop is fuelled; none
means the fuel ran out before the chain ended. -/

/-- Loop body of aggregate_extents. cur is current_extent, next is
next_cluster_no (the raw FAT entry of the last cluster covered by cur),
acc holds the extents closed so far, in emission order. -/
def aggregate_loop (fat : Nat → Nat) : Nat → fat_extent → Nat → List fat_extent →
    Option (List fat_extent)
  | 0, _, _, _ => none
  | fuel + 1, cur, next, acc =>
    let is_end := FAT_END_OF_CHAIN ≤ next
    let is_consecutive := next = cur.physical_start + cur.length
    let has_max_length := cur.length = EXT4_MAX_INIT_EXTENT_LEN
    if is_end ∨ ¬ is_consecutive ∨ has_max_length then
      let acc2 := acc ++ [cur]
      if is_end then some acc2
      else aggregate_loop fat fuel ⟨cur.logical_start + cur.length, 1, next⟩ (fat next) acc2
    else
      aggregate_loop fat fuel ⟨cur.logical_start, cur.length + 1, cur.physical_start⟩ (fat next) acc

/-- Source: the traversal translation unit, aggregate_extents. A zero
cluster number denotes a zero-length file and closes no extent. -/
def aggregate_extents (fat : Nat → Nat) (fuel : Nat) (cluster_no : Nat) :
    Option (List fat_extent) :=
  if cluster_no = 0 then some []
  else aggregate_loop fat fuel ⟨0, 1, cluster_no⟩ (fat cluster_no) []

/-! ## Target layout planner (ext4.cpp, ext4_bg.cpp, util.h) -/

/-- Halving loop computing floor(log2) of a positive value, fuelled so the
kernel can evaluate it. -/
def log2_go : Nat → Nat → Nat
  | 0, _ => 0
  | fuel + 1, v => if v < 2 then 0 else log2_go fuel (v / 2) + 1

/-- Source: util.h, log2 via count-leading-zeros on uint32; equals
floor(log2) for positive 32-bit arguments (the only ones the code passes),
for which 32 halvings always suffice. -/
def log2 (value : Nat) : Nat := log2_go 32 value

/-- Source: util.h, ceildiv. -/
def ceildiv (a b : Nat) : Nat := (a + b - 1) / b

/-- Source: util.h, from_lo_hi for a uint32 pair. -/
def from_lo_hi (lo hi : Nat) : Nat := hi * 2 ^ 32 + lo

/-- Source: util.h, set_lo_hi for a uint32 pair: the low and high halves of a
64-bit value. -/
def set_lo_hi (value : Nat) : Nat × Nat := (value % 2 ^ 32, value / 2 ^ 32 % 2 ^ 32)

/-- Source: ext4.h, struct ext4_super_block; only the fields entering the
layout computations of the claims are modelled. Defaults are the memset-0
state of init_ext4_sb. -/
structure ext4_super_block where
  s_log_block_size : Nat := 0
  s_first_data_block : Nat := 0
  s_blocks_per_group : Nat := 0
  s_clusters_per_group : Nat := 0
  s_log_cluster_size : Nat := 0
  s_inodes_per_group : Nat := 0
  s_inodes_count : Nat := 0
  s_inode_size : Nat := 0
  s_desc_size : Nat := 0
  s_reserved_gdt_blocks : Nat := 0
  s_blocks_count_lo : Nat := 0
  s_blocks_count_hi : Nat := 0
  s_backup_bgs_0 : Nat := 0
  s_backup_bgs_1 : Nat := 0
deriving Repr, DecidableEq

/-- Source: ext4.cpp, block_size(). -/
def block_size (sb : ext4_super_block) : Nat :=
  2 ^ (sb.s_log_block_size + 10)

/-- Source: ext4.cpp, block_count(). -/
def block_count (sb : ext4_super_block) : Nat :=
  from_lo_hi sb.s_blocks_count_lo sb.s_blocks_count_hi

/-- Source: ext4_bg.cpp, block_group_count(). -/
def block_group_count (sb : ext4_super_block) : Nat :=
  ceildiv (block_count sb) sb.s_blocks_per_group

/-- Source: ext4_bg.cpp, gdt_block_count(). -/
def gdt_block_count (sb : ext4_super_block) : Nat :=
  ceildiv (block_group_count sb) (block_size sb / sb.s_desc_size)

/-- Source: ext4_bg.cpp, inode_table_blocks(). -/
def inode_table_blocks (sb : ext4_super_block) : Nat :=
  ceildiv (sb.s_inodes_per_group * sb.s_inode_size) (block_size sb)

/-- Source: ext4_bg.cpp, block_group_overhead(bool has_sb_copy). -/
def block_group_overhead (sb : ext4_super_block) (has_sb_copy : Bool) : Nat :=
  if has_sb_copy then
    3 + gdt_block_count sb + sb.s_reserved_gdt_blocks + inode_table_blocks sb
  else
    2 + inode_table_blocks sb

/-- Source: ext4.cpp, init_ext4_sb, restricted to the pure layout fields
(magic numbers, uuid, timestamps and the volume label are irrelevant to the
claims). Field assignments are performed in source order; in particular the
final-block-group test at the end of the blocks_count section reassigns
exactly the value block_count that line 62 of ext4.cpp already stored, and
s_inodes_per_group is still 0 (memset state) when block_group_overhead is
evaluated inside that test, as in the source. Returns none for the
cluster-size-below-1kB fatal exit. EXT4_MAX_BLOCKS_PER_GROUP = 2^16 - 8 and
EXT4_INODE_SIZE = 256; the mke2fs inode ratio constant is 16384. -/
def init_ext4_sb (bytes_per_sector sectors_per_cluster sector_count : Nat) :
    Option ext4_super_block :=
  let bytes_per_block := bytes_per_sector * sectors_per_cluster
  let partition_bytes := bytes_per_sector * sector_count
  if bytes_per_block < 1024 then none
  else
    let sb : ext4_super_block := { s_desc_size := 64, s_inode_size := 256 }
    let sb := { sb with
      s_log_block_size := log2 bytes_per_block - 10,
      s_first_data_block := if bytes_per_block = 1024 then 1 else 0,
      s_blocks_per_group := min (bytes_per_block * 8) (2 ^ 16 - 8) }
    let bcount := partition_bytes / bytes_per_block
    let sb := { sb with
      s_blocks_count_lo := (set_lo_hi bcount).1,
      s_blocks_count_hi := (set_lo_hi bcount).2 }
    let sb := { sb with
      s_log_cluster_size := sb.s_log_block_size,
      s_clusters_per_group := sb.s_blocks_per_group }
    let sb :=
      if bcount % sb.s_blocks_per_group < block_group_overhead sb true + 50 then
        { sb with
          s_blocks_count_lo := (set_lo_hi bcount).1,
          s_blocks_count_hi := (set_lo_hi bcount).2 }
      else sb
    let bg_count := block_group_count sb
    let sb :=
      if 1 < bg_count then
        if 2 < bg_count then
          { sb with s_backup_bgs_0 := 1, s_backup_bgs_1 := block_group_count sb - 1 }
        else { sb with s_backup_bgs_0 := 1 }
      else sb
    let sb := { sb with
      s_inodes_per_group := min (sb.s_blocks_per_group * bytes_per_block / 16384)
        (bytes_per_block * 8) }
    let sb := { sb with s_inodes_count := sb.s_inodes_per_group * block_group_count sb }
    some sb

/-! ## UCS-2 to UTF-8 transcoding and ext4 dentry building (ext4_dentry.cpp) -/

/-- Source: ext4_dentry.cpp, next_multiple_of_four. -/
def next_multiple_of_four (n : Nat) : Nat :=
  ceildiv n 4 * 4

/-- Loop of ucs2toutf8. cap is the pointer distance dest_end - dest; acc the
bytes written so far (so acc.length is the pointer distance pos - dest).
The C loop also stops at src exhaustion (i < src_size) or a zero unit. -/
def ucs2toutf8_go (cap : Nat) : List Nat → List Nat → List Nat
  | [], acc => acc
  | ch :: rest, acc =>
    if ch = 0 then acc
    else if ch < 0x80 then
      if cap ≤ acc.length then acc
      else ucs2toutf8_go cap rest (acc ++ [ch])
    else if ch < 0x800 then
      if cap - 1 ≤ acc.length then acc
      else ucs2toutf8_go cap rest (acc ++ [(ch >>> 6) ||| 0xC0, (ch &&& 0x3F) ||| 0x80])
    else
      if cap - 2 ≤ acc.length then acc
      else ucs2toutf8_go cap rest
        (acc ++ [(ch >>> 12) ||| 0xE0, ((ch >>> 6) &&& 0x3F) ||| 0x80, (ch &&& 0x3F) ||| 0x80])

/-- Source: ext4_dentry.cpp, ucs2toutf8(dest, dest_end, src, src_size):
returns the bytes written into [dest, dest + cap). The source list stands
for src[0..src_size). -/
def ucs2toutf8 (cap : Nat) (src : List Nat) : List Nat :=
  ucs2toutf8_go cap src []

/-- Source: tree_builder.h, struct ext4_dentry; the name is kept as the list
of its bytes, so name_len is name.length. -/
structure ext4_dentry where
  inode : Nat
  rec_len : Nat
  name_len : Nat
  name : List Nat
deriving Repr, DecidableEq

/-- Source: ext4_dentry.cpp, build_dentry(inode_number, read_stream): the
read_stream yields the LFN name segments of LFN_ENTRY_LENGTH UCS-2 units
each; every segment is transcoded into the remaining room of the 255-byte
name buffer (limit pointer ext_name + EXT4_NAME_LEN - 1), and the dentry is
finished with rec_len = next_multiple_of_four(name_len + 8). -/
def build_dentry (inode_number : Nat) (segments : List (List Nat)) : ext4_dentry :=
  let name := segments.foldl
    (fun nm seg => nm ++ ucs2toutf8 (EXT4_NAME_LEN - 1 - nm.length) seg) []
  { inode := inode_number
    rec_len := next_multiple_of_four (name.length + 8)
    name_len := name.length
    name := name }

/-! ## Extent allocator (extent-allocator.cpp)

The process-global struct extent_allocator together with the global byte
array allocation_bitmap becomes one record. The bitmap is modelled at bit
granularity as a function from cluster number to Bool (true = bit set =
used); set_used and is_free in the C source address disjoint bits of the
byte array for distinct cluster numbers, so this abstraction is exact.
blocked_extent_current (a pointer into the sorted blocked_extents array)
becomes the index blocked_idx; the array itself is the list blocked_extents,
whose length in every real initialization is blocked_extent_count + 1 (the
entry at index blocked_extent_count being the end-of-filesystem sentinel
appended by create_block_group_meta_extents). -/

/-- Source: extent-allocator.h, struct extent_allocator plus the global
allocation bitmap. -/
structure extent_allocator where
  index_in_fat : Nat
  blocked_extent_count : Nat
  blocked_extents : List fat_extent
  blocked_idx : Nat
  bitmap : Nat → Bool

/-- Source: extent-allocator.cpp, set_used. -/
def set_used (a : extent_allocator) (cluster_no : Nat) : extent_allocator :=
  { a with bitmap := fun c => if c = cluster_no then true else a.bitmap c }

/-- Source: extent-allocator.cpp, is_free. -/
def is_free (a : extent_allocator) (cluster_no : Nat) : Bool :=
  ! a.bitmap cluster_no

/-- The blocked extent at index j (dereference of a pointer into the
blocked_extents array; every dereference the program performs is in bounds
in well-formed states, so the default is never read there). -/
def bext (l : List fat_extent) (j : Nat) : fat_extent :=
  l.getD j ⟨0, 0, 0⟩

/-- Source: extent-allocator.cpp, can_be_used. Mutates the allocator (cursor
increment, possibly a jump past the current blocked extent) and returns the
usability verdict for the new cursor position. none models the fatal
exit(1) of fs_is_full. -/
def can_be_used (a : extent_allocator) : Option (extent_allocator × Bool) :=
  let idx := a.index_in_fat + 1
  let be := bext a.blocked_extents a.blocked_idx
  if idx < be.physical_start then
    some ({ a with index_in_fat := idx }, is_free a idx)
  else
    let a2 := { a with
      index_in_fat := be.physical_start + be.length,
      blocked_idx := a.blocked_idx + 1 }
    if a.blocked_extent_count < a2.blocked_idx then none
    else some (a2, false)

/-- Source: extent-allocator.cpp, the while(!can_be_used()); loop heading
allocate_extent, fuelled. -/
def skip_to_usable : Nat → extent_allocator → Option extent_allocator
  | 0, _ => none
  | fuel + 1, a =>
    match can_be_used a with
    | none => none
    | some (a2, true) => some a2
    | some (a2, false) => skip_to_usable fuel a2

/-- Source: extent-allocator.cpp, the greedy extension loop of
allocate_extent: while(result.length < max_length && can_be_used())
{ result.length = index_in_fat - physical_start + 1; set_used(index); }.
Each true iteration grows the extent by one cluster, so fuel max_length
makes the fuelled recursion exactly the C loop. -/
def extend_extent : Nat → fat_extent → Nat → extent_allocator →
    Option (fat_extent × extent_allocator)
  | 0, r, _, a => some (r, a)
  | fuel + 1, r, max_length, a =>
    if r.length < max_length then
      match can_be_used a with
      | none => none
      | some (a2, true) =>
        extend_extent fuel
          { r with length := a2.index_in_fat - r.physical_start + 1 }
          max_length (set_used a2 a2.index_in_fat)
      | some (a2, false) => some (r, a2)
    else some (r, a)

/-- Source: extent-allocator.cpp, allocate_extent(max_length). The returned
extent starts at the first usable cluster, which is marked used, and is then
extended greedily. fuel bounds the cursor skip loop only. -/
def allocate_extent (fuel : Nat) (max_length : Nat) (a : extent_allocator) :
    Option (fat_extent × extent_allocator) :=
  match skip_to_usable fuel a with
  | none => none
  | some a2 =>
    extend_extent max_length ⟨0, 1, a2.index_in_fat⟩ max_length
      (set_used a2 a2.index_in_fat)

/-- A sequence of allocate_extent calls with the given max_length arguments,
threading the allocator state and collecting the returned extents in order. -/
def allocate_run (fuel : Nat) : List Nat → extent_allocator →
    Option (List fat_extent × extent_allocator)
  | [], a => some ([], a)
  | m :: ms, a =>
    match allocate_extent fuel m a with
    | none => none
    | some (e, a2) =>
      match allocate_run fuel ms a2 with
      | none => none
      | some (es, a3) => some (e :: es, a3)

/-- Source: extent-allocator.cpp, find_first_blocked_extent: binary search
for the least index (below blocked_extent_count, the bound named end in the
source) whose extent does not end strictly before physical_address. The C
while loop is fuelled; fuel b..e iterations always suffice since the gap
halves, and the callers pass the full count as fuel. -/
def ffbe_go (l : List fat_extent) (physical_address : Nat) :
    Nat → Nat → Nat → Nat
  | 0, b, _ => b
  | fuel + 1, b, e =>
    if b < e then
      let mid := (b + e) / 2
      let be := l.getD mid ⟨0, 0, 0⟩
      if be.physical_start + be.length < physical_address then
        ffbe_go l physical_address fuel (mid + 1) e
      else
        ffbe_go l physical_address fuel b mid
    else b

/-- Source: extent-allocator.cpp, find_first_blocked_extent. -/
def find_first_blocked_extent (l : List fat_extent) (count : Nat)
    (physical_address : Nat) : Nat :=
  ffbe_go l physical_address count 0 count

/-- Source: extent-allocator.cpp, find_next_blocked_extent(i, physical_end).
The reference parameter i becomes an explicit in/out value: the result pairs
the found extent (none once the index reaches blocked_extent_count or the
next extent begins past physical_end) with the updated index. -/
def find_next_blocked_extent (l : List fat_extent) (count : Nat)
    (i physical_end : Nat) : Option fat_extent × Nat :=
  if count ≤ i then (none, i)
  else
    let be := l.getD i ⟨0, 0, 0⟩
    if physical_end < be.physical_start then (none, i + 1)
    else (some be, i + 1)

/-! ## Traversal, fragmentation and relocation (traversal translation unit)

State for find_blocked_extent_fragments / resettle_extent: the allocator,
the data region of the disk (one abstract value per cluster: the memcpy in
resettle_extent copies whole clusters), and the sequence of fat_extent
records written to the stream archiver so far. Writing a record becomes a
list append; the archiver page management is orthogonal to the recorded
extents and is not modelled. -/

structure trav_state where
  alloc : extent_allocator
  disk : Nat → Nat
  out : List fat_extent

/-- Source: the memcpy in resettle_extent, at cluster granularity: the n
clusters starting at src are copied over the n clusters starting at dst
(the two ranges are disjoint whenever the call is reached, so snapshot
semantics coincide with memcpy). -/
def copy_clusters (disk : Nat → Nat) (dst src n : Nat) : Nat → Nat :=
  fun c => if dst ≤ c ∧ c < dst + n then disk (src + (c - dst)) else disk c

/-- Source: the for loop of resettle_extent, fuelled (each successful
allocation covers at least one cluster, so fuel input.length suffices in
well-formed states). i is the loop counter: the number of clusters of the
input extent already resettled. afuel is passed through to allocate_extent. -/
def resettle_loop (afuel : Nat) (input : fat_extent) :
    Nat → Nat → trav_state → Option trav_state
  | 0, _, _ => none
  | fuel + 1, i, st =>
    if i < input.length then
      match allocate_extent afuel (input.length - i) st.alloc with
      | none => none
      | some (frag0, alloc2) =>
        let frag := { frag0 with logical_start := input.logical_start + i }
        let st2 : trav_state :=
          { alloc := alloc2
            disk := copy_clusters st.disk frag.physical_start
              (input.physical_start + i) frag.length
            out := st.out ++ [frag] }
        resettle_loop afuel input fuel (i + frag.length) st2
    else some st

/-- Source: resettle_extent(cluster_no, is_dir_flag, write_stream,
input_extent); the visualizer call is side-effect free for the model. -/
def resettle_extent (fuel afuel : Nat) (input : fat_extent) (st : trav_state) :
    Option trav_state :=
  resettle_loop afuel input fuel 0 st

/-- Source: the while loop of find_blocked_extent_fragments, fuelled.
fragment_ps is fragment_physical_start, ipe is input_physical_end, i and be
are the iteration index and the current candidate blocked extent
(blocked_extent in the source). -/
def fbef_loop (afuel : Nat) (input : fat_extent) :
    Nat → Nat → Nat → Nat → Option fat_extent → trav_state → Option trav_state
  | 0, _, _, _, _, _ => none
  | fuel + 1, fragment_ps, ipe, i, be, st =>
    if fragment_ps < ipe then
      let blocked := st.alloc.blocked_extents
      let count := st.alloc.blocked_extent_count
      match be with
      | some b =>
        if b.physical_start ≤ fragment_ps then
          -- is_blocked: clip the fragment to the blocked extent and advance
          let blocked_physical_end := b.physical_start + b.length
          let fpe := if blocked_physical_end < ipe then blocked_physical_end else ipe
          let next := find_next_blocked_extent blocked count i ipe
          let frag : fat_extent :=
            ⟨input.logical_start + (fragment_ps - input.physical_start),
             fpe - fragment_ps, fragment_ps⟩
          match resettle_extent (frag.length + 1) afuel frag st with
          | none => none
          | some st2 => fbef_loop afuel input fuel fpe ipe next.2 next.1 st2
        else
          -- not blocked, but a blocked extent begins inside the remainder
          let fpe := b.physical_start
          let frag : fat_extent :=
            ⟨input.logical_start + (fragment_ps - input.physical_start),
             fpe - fragment_ps, fragment_ps⟩
          fbef_loop afuel input fuel fpe ipe i (some b)
            { st with out := st.out ++ [frag] }
      | none =>
        let fpe := ipe
        let frag : fat_extent :=
          ⟨input.logical_start + (fragment_ps - input.physical_start),
           fpe - fragment_ps, fragment_ps⟩
        fbef_loop afuel input fuel fpe ipe i none
          { st with out := st.out ++ [frag] }
    else some st

/-- Source: find_blocked_extent_fragments(cluster_no, is_dir_flag,
write_stream, input_extent). The initial candidate comes from the binary
search followed by one find_next_blocked_extent step, as in the source. -/
def find_blocked_extent_fragments (fuel afuel : Nat) (input : fat_extent)
    (st : trav_state) : Option trav_state :=
  let blocked := st.alloc.blocked_extents
  let count := st.alloc.blocked_extent_count
  let ipe := input.physical_start + input.length
  let i0 := find_first_blocked_extent blocked count input.physical_start
  let first := find_next_blocked_extent blocked count i0 ipe
  fbef_loop afuel input fuel input.physical_start ipe first.2 first.1 st

/-! ## Directory block writing (tree_builder.cpp)

DentryWritePosition becomes a record of the blocks already sealed (their
dentries in write order), the dentries of the block currently being filled,
and position_in_block. The allocator callback only yields the physical block
number, which no claim about rec_len layout depends on, so block numbers are
not tracked. previous_dentry always designates the last dentry written into
the current block (and is NULL exactly when that block is empty) at every
point where the source reads it, so it is represented by the current block
tail. -/

/-- Grow the rec_len of the last dentry of a block by delta (the
previous_dentry->rec_len += ... statements of tree_builder.cpp). -/
def grow_last_rec_len : List ext4_dentry → Nat → List ext4_dentry
  | [], _ => []
  | [d], delta => [{ d with rec_len := d.rec_len + delta }]
  | d :: ds, delta => d :: grow_last_rec_len ds delta

/-- Source: tree_builder.h, struct DentryWritePosition, restricted to the
layout state (inode_no and block_no do not enter the rec_len claims). -/
structure dentry_write_state where
  closed : List (List ext4_dentry)
  current : List ext4_dentry
  position_in_block : Nat
deriving Repr, DecidableEq

/-- State right after the allocate_block call that opens a directory's first
block: no sealed block, an empty current block, position 0. -/
def dentry_write_init : dentry_write_state := ⟨[], [], 0⟩

/-- Source: tree_builder.cpp, allocate_block: the previous dentry (if any)
grows to the end of its block, and writing continues at position 0 of a
freshly allocated block. -/
def dir_allocate_block (bs : Nat) (st : dentry_write_state) : dentry_write_state :=
  if st.current = [] then { st with position_in_block := 0 }
  else
    ⟨st.closed ++ [grow_last_rec_len st.current (bs - st.position_in_block)], [], 0⟩

/-- Source: tree_builder.cpp, the dentry-placement step shared by
build_file, build_dot_dirs and build_lost_found: spill to a new block when
the dentry does not fit, then write it and advance position_in_block. -/
def dir_add_dentry (bs : Nat) (st : dentry_write_state) (d : ext4_dentry) :
    dentry_write_state :=
  let st2 := if bs - st.position_in_block < d.rec_len then dir_allocate_block bs st else st
  { st2 with
    current := st2.current ++ [d],
    position_in_block := st2.position_in_block + d.rec_len }

/-- Source: tree_builder.cpp, finalize_dir: the last dentry written (if any)
takes up its entire block. Returns all blocks of the directory. -/
def finalize_dir (bs : Nat) (st : dentry_write_state) : List (List ext4_dentry) :=
  if st.current = [] then st.closed
  else st.closed ++ [grow_last_rec_len st.current (bs - st.position_in_block)]

/-- The directory-block layout produced for a dentry sequence: write each
dentry in order starting from a fresh first block, then finalize. -/
def write_dir_blocks (bs : Nat) (ds : List ext4_dentry) : List (List ext4_dentry) :=
  finalize_dir bs (ds.foldl (dir_add_dentry bs) dentry_write_init)

/-! ## Bitmap primitives (util.h / util.cpp)

The bitmap is a byte array, modelled as a function from byte index to byte
value (every value < 256; theorems carry that bound where needed).
bitmap_set_bits reinterprets the byte array as an array of 32-bit segments;
on the little-endian targets the converter runs on, segment j is bytes
4j..4j+3 in little-endian order, which word_get / word_set makes explicit. -/

/-- Source: util.cpp, bitmap_set_bit. -/
def bitmap_set_bit (mem : Nat → Nat) (bit_num : Nat) : Nat → Nat :=
  fun k => if k = bit_num / 8 then mem k ||| (1 <<< (bit_num % 8)) else mem k

/-- Bit i of the byte-array bitmap, as read by is_free-style accessors. -/
def bitmap_get_bit (mem : Nat → Nat) (i : Nat) : Bool :=
  (mem (i / 8)).testBit (i % 8)

/-- Little-endian load of 32-bit segment j from the byte array: byte 4j is
the least significant byte. -/
def word_get (mem : Nat → Nat) (j : Nat) : Nat :=
  mem (4 * j) % 256 + 256 * (mem (4 * j + 1) % 256 +
    256 * (mem (4 * j + 2) % 256 + 256 * (mem (4 * j + 3) % 256)))

/-- Little-endian store of 32-bit value v into segment j of the byte array. -/
def word_set (mem : Nat → Nat) (j v : Nat) : Nat → Nat :=
  fun k =>
    if k = 4 * j then v % 256
    else if k = 4 * j + 1 then v / 256 % 256
    else if k = 4 * j + 2 then v / 65536 % 256
    else if k = 4 * j + 3 then v / 16777216 % 256
    else mem k

/-- Source: util.cpp, the fillLSBs(len) macro: (1U << len) - 1. -/
def fillLSBs (len : Nat) : Nat := (1 <<< len) - 1

/-- Bitwise complement on uint32. -/
def compl32 (x : Nat) : Nat := x ^^^ 0xFFFFFFFF

/-- The while(beginPtr < endPtr) *beginPtr++ = -1 middle loop of
bitmap_set_bits: store 0xFFFFFFFF into n consecutive segments from j on. -/
def fill_words : (Nat → Nat) → Nat → Nat → (Nat → Nat)
  | mem, _, 0 => mem
  | mem, j, n + 1 => fill_words (word_set mem j 0xFFFFFFFF) (j + 1) n

/-- Source: util.cpp, bitmap_set_bits(bitmap, begin, end), segment
implementation: or the first partial segment with the high mask, fill whole
segments, or the last partial segment with the low mask; a single segment
receives the intersection of both masks. -/
def bitmap_set_bits (mem : Nat → Nat) (bbegin bend : Nat) : Nat → Nat :=
  let bw := bbegin / 32
  let ew := bend / 32
  if bw < ew then
    let mem1 := word_set mem bw (word_get mem bw ||| compl32 (fillLSBs (bbegin % 32)))
    let mem2 := fill_words mem1 (bw + 1) (ew - (bw + 1))
    word_set mem2 ew (word_get mem2 ew ||| fillLSBs (bend % 32))
  else if bw = ew then
    word_set mem bw
      (word_get mem bw ||| (compl32 (fillLSBs (bbegin % 32)) &&& fillLSBs (bend % 32)))
  else mem

/-- The naive loop commented out in the source of bitmap_set_bits: call
bitmap_set_bit on every index of [bbegin, bbegin + n). -/
def bitmap_set_bits_loop : (Nat → Nat) → Nat → Nat → (Nat → Nat)
  | mem, _, 0 => mem
  | mem, b, n + 1 => bitmap_set_bits_loop (bitmap_set_bit mem b) (b + 1) n

/-! ## C7: LFN classification -/

/-- C7 counterexample: the claim states that is_lfn classifies a directory
entry as a long-filename entry iff the low nibble of its attribute byte
equals 0x0F, and in particular that an entry with attribute byte 0x01 is
never classified as LFN. The code classifies attribute 0x01 (a read-only
file) as LFN although its low nibble is not 0x0F. -/
theorem is_lfn_exact_nibble_counterexample :
    is_lfn ⟨0x01⟩ = true ∧ (0x01 &&& 0x0F) ≠ 0x0F := by decide

/-- C7 amended: is_lfn classifies an entry as a long-filename entry iff the
low nibble of its attribute byte is nonzero (not only when it equals 0x0F). -/
theorem is_lfn_iff_low_nibble_nonzero (d : fat_dentry) :
    is_lfn d = true ↔ d.attrs % 16 ≠ 0 := by
  have h : d.attrs &&& 0x0F = d.attrs % 16 := by
    simpa using Nat.and_pow_two_sub_one_eq_mod d.attrs 4
  simp [is_lfn, h]

/-! ## C6: FAT entry classification while following a chain -/

/-- C6 counterexample: the claim states that a FAT entry is treated as
end-of-chain iff its value masked to the low 28 bits is at least 0x0FFFFFF8,
the upper 4 bits never mattering. For the entry 0x10000000 the masked value
is 0 (free, far below the end-of-chain range), yet aggregate_extents treats
it as end-of-chain: with fuel 1 the loop can only return some by taking the
is_end branch, and it does. -/
theorem fat_end_of_chain_unmasked_counterexample :
    aggregate_extents (fun _ => 0x10000000) 1 2 = some [⟨0, 1, 2⟩] ∧
    0x10000000 &&& CLUSTER_ENTRY_MASK = FREE_CLUSTER ∧
    0x10000000 &&& CLUSTER_ENTRY_MASK < FAT_END_OF_CHAIN := by decide

/-- C6 amended: when following a FAT cluster chain, an entry is treated as
end-of-chain iff its raw 32-bit value is at least 0x0FFFFFF8 (the upper
4 bits do participate in this comparison), while a cluster is treated as
free iff its value masked to the low 28 bits equals 0 (the upper 4 bits
never affect the free classification). The first conjunct characterizes the
loop exit operationally: with fuel for a single step, aggregate_loop
completes exactly when is_end holds, since every other branch recurses. -/
theorem fat_entry_classification (fat : Nat → Nat) (cur : fat_extent) (next : Nat)
    (acc : List fat_extent) :
    ((aggregate_loop fat 1 cur next acc).isSome = true ↔ FAT_END_OF_CHAIN ≤ next) ∧
    (∀ entry : Nat, is_free_cluster entry = true ↔
      entry &&& CLUSTER_ENTRY_MASK = FREE_CLUSTER) ∧
    (∀ entry : Nat, is_free_cluster entry = is_free_cluster (entry &&& CLUSTER_ENTRY_MASK)) := by
  refine ⟨?_, ?_, ?_⟩
  · by_cases hend : FAT_END_OF_CHAIN ≤ next
    · simp [aggregate_loop, hend]
    · simp only [aggregate_loop, hend]
      split <;> simp [aggregate_loop, hend]
  · intro entry
    simp [is_free_cluster]
  · intro entry
    unfold is_free_cluster
    rw [Nat.and_assoc, Nat.and_self]

/-! ## C5: over-long names are silently truncated, not refused -/

/-- The UCS-2 units of the name from the repository's too-long-filename
test: 254 ASCII letters a followed by U+00E4, whose UTF-8 encoding has
256 bytes. -/
def long_name_units : List Nat := List.replicate 254 97 ++ [0xE4]

/-- Pad a UCS-2 name to a whole number of LFN entries the way FAT stores it:
a 0x0000 terminator followed by 0xFFFF fill. -/
def lfn_pad (units : List Nat) : List Nat :=
  units ++ [0] ++ List.replicate ((13 - (units.length + 1) % 13) % 13) 0xFFFF

/-- Split a padded UCS-2 name into LFN segments of 13 units, as the
traversal hands them to build_dentry. -/
def chunk13_go : Nat → List Nat → List (List Nat)
  | 0, _ => []
  | _, [] => []
  | fuel + 1, l => l.take 13 :: chunk13_go fuel (l.drop 13)

/-- Segments of a padded UCS-2 name. -/
def chunk13 (l : List Nat) : List (List Nat) := chunk13_go l.length l

set_option maxRecDepth 100000 in
/-- C5: the claim states that a name whose UTF-8 transcoding exceeds 255
bytes makes building the ext4 dentry a fatal error and that no dentry with
a silently shortened name is ever produced. The code has no error path:
build_dentry is total, and on the 256-UTF-8-byte name of the repository's
too-long-filename test it returns a dentry whose name was silently cut to
the 254 bytes that fit the buffer (the trailing U+00E4 is dropped). -/
theorem build_dentry_silently_truncates_long_name :
    (ucs2toutf8 1000 long_name_units).length = 256 ∧
    EXT4_NAME_LEN < (ucs2toutf8 1000 long_name_units).length ∧
    (build_dentry 12 (chunk13 (lfn_pad long_name_units))).name = List.replicate 254 97 ∧
    (build_dentry 12 (chunk13 (lfn_pad long_name_units))).name_len = 254 := by decide

/-! ## C3: the final-block-group reduction in init_ext4_sb is a no-op -/

/-- Storing a 64-bit value below 2^64 through set_lo_hi and reading it back
through from_lo_hi is the identity. -/
theorem lo_hi_roundtrip (v : Nat) (h : v < 18446744073709551616) :
    v / 4294967296 % 4294967296 * 4294967296 + v % 4294967296 = v := by
  have h1 : v / 4294967296 < 4294967296 := by omega
  rw [Nat.mod_eq_of_lt h1]
  omega

/-- C3: blocks_count as initialized by init_ext4_sb always equals
partition_bytes / bytes_per_block. The claim (and the comment in ext4.cpp)
states that when the final block group would hold fewer than 50 data blocks
beyond its overhead the block count is reduced to exclude that group, but
the then-branch of that test stores the unreduced block_count value again,
so no input is ever reduced. Input bounds are the C types: bytes_per_sector
is uint16, sectors_per_cluster uint8, the sector count uint32. -/
theorem init_ext4_sb_blocks_count_never_reduced
    (bps spc sc : Nat) (sb : ext4_super_block)
    (hbps : bps < 2 ^ 16) (hspc : spc < 2 ^ 8) (hsc : sc < 2 ^ 32)
    (h : init_ext4_sb bps spc sc = some sb) :
    block_count sb = (bps * sc) / (bps * spc) := by
  have hlt : bps * sc / (bps * spc) < 2 ^ 64 := by
    calc bps * sc / (bps * spc) ≤ bps * sc := Nat.div_le_self _ _
    _ < 2 ^ 16 * 2 ^ 32 := by
        exact Nat.mul_lt_mul_of_lt_of_le hbps (Nat.le_of_lt hsc) (by norm_num)
    _ < 2 ^ 64 := by norm_num
  simp only [init_ext4_sb] at h
  split at h
  · exact absurd h (by simp)
  · simp only [Option.some.injEq] at h
    subst h
    have h32 : (2 : Nat) ^ 32 = 4294967296 := by norm_num
    have h64 : (2 : Nat) ^ 64 = 18446744073709551616 := by norm_num
    rw [h64] at hlt
    simp only [block_count]
    repeat' split
    all_goals dsimp only
    all_goals simp only [from_lo_hi, set_lo_hi, h32]
    all_goals exact lo_hi_roundtrip _ hlt

/-! ## C8: rec_len layout of finalized directory blocks -/

/-- Total of the rec_len fields of a block's dentries. -/
def sum_rec_len (blk : List ext4_dentry) : Nat :=
  (blk.map ext4_dentry.rec_len).sum

/-- The layout property claimed for every finalized directory block: the
rec_len values tile the block exactly, every dentry except the last carries
its natural rec_len next_multiple_of_four(name_len + 8), and the last
dentry's rec_len is that value possibly grown. -/
def block_ok (bs : Nat) (blk : List ext4_dentry) : Prop :=
  sum_rec_len blk = bs ∧
  (∀ d ∈ blk.dropLast, d.rec_len = next_multiple_of_four (d.name_len + 8)) ∧
  (∀ dl, blk.getLast? = some dl → next_multiple_of_four (dl.name_len + 8) ≤ dl.rec_len)

theorem grow_last_rec_len_ne_nil (l : List ext4_dentry) (delta : Nat) (h : l ≠ []) :
    grow_last_rec_len l delta ≠ [] := by
  match l with
  | [] => exact absurd rfl h
  | [d] => simp [grow_last_rec_len]
  | d :: d2 :: ds => simp [grow_last_rec_len]

theorem grow_last_rec_len_sum (l : List ext4_dentry) (delta : Nat) (h : l ≠ []) :
    sum_rec_len (grow_last_rec_len l delta) = sum_rec_len l + delta := by
  match l with
  | [] => exact absurd rfl h
  | [d] => simp [grow_last_rec_len, sum_rec_len]
  | d :: d2 :: ds =>
    have ih := grow_last_rec_len_sum (d2 :: ds) delta (by simp)
    simp only [grow_last_rec_len, sum_rec_len, List.map_cons, List.sum_cons] at ih ⊢
    omega

theorem grow_last_rec_len_dropLast (l : List ext4_dentry) (delta : Nat) :
    (grow_last_rec_len l delta).dropLast = l.dropLast := by
  match l with
  | [] => rfl
  | [d] => rfl
  | d :: d2 :: ds =>
    have ih := grow_last_rec_len_dropLast (d2 :: ds) delta
    have hne : grow_last_rec_len (d2 :: ds) delta ≠ [] :=
      grow_last_rec_len_ne_nil _ _ (by simp)
    simp only [grow_last_rec_len]
    rw [List.dropLast_cons_of_ne_nil hne, List.dropLast_cons_of_ne_nil (by simp), ih]

theorem getLast?_cons_ne_nil {α : Type} (a : α) {l : List α} (h : l ≠ []) :
    (a :: l).getLast? = l.getLast? := by
  cases l with
  | nil => exact absurd rfl h
  | cons b t => rw [List.getLast?_cons_cons]

theorem mem_of_getLast?_eq_some {α : Type} {l : List α} {x : α}
    (h : l.getLast? = some x) : x ∈ l := by
  obtain ⟨hne, rfl⟩ := List.mem_getLast?_eq_getLast h
  exact List.getLast_mem hne

theorem grow_last_rec_len_getLast (l : List ext4_dentry) (delta : Nat) (d0 : ext4_dentry)
    (h : l.getLast? = some d0) :
    (grow_last_rec_len l delta).getLast? =
      some { d0 with rec_len := d0.rec_len + delta } := by
  match l with
  | [] => simp at h
  | [d] =>
    simp only [List.getLast?_singleton, Option.some.injEq] at h
    subst h
    rfl
  | d :: d2 :: ds =>
    have h2 : (d2 :: ds).getLast? = some d0 := by
      rw [List.getLast?_cons_cons] at h
      exact h
    have ih := grow_last_rec_len_getLast (d2 :: ds) delta d0 h2
    have hne : grow_last_rec_len (d2 :: ds) delta ≠ [] :=
      grow_last_rec_len_ne_nil _ _ (by simp)
    simp only [grow_last_rec_len]
    rw [getLast?_cons_ne_nil _ hne]
    exact ih

/-- Invariant of the dentry write position maintained across dentry
placements: position_in_block tracks the rec_len total of the current
block, never exceeds the block size, every sealed block satisfies
block_ok, and the current block still carries natural rec_lens. -/
def writer_inv (bs : Nat) (st : dentry_write_state) : Prop :=
  st.position_in_block = sum_rec_len st.current ∧
  st.position_in_block ≤ bs ∧
  (∀ blk ∈ st.closed, block_ok bs blk) ∧
  (∀ d ∈ st.current, d.rec_len = next_multiple_of_four (d.name_len + 8))

theorem block_ok_of_grow (bs : Nat) (st : dentry_write_state)
    (hinv : writer_inv bs st) (hne : st.current ≠ []) :
    block_ok bs (grow_last_rec_len st.current (bs - st.position_in_block)) := by
  obtain ⟨h1, h2, _, h4⟩ := hinv
  refine ⟨?_, ?_, ?_⟩
  · rw [grow_last_rec_len_sum _ _ hne, ← h1]
    omega
  · intro d hd
    rw [grow_last_rec_len_dropLast] at hd
    exact h4 d (List.dropLast_subset _ hd)
  · intro dl hdl
    cases hd0 : st.current.getLast? with
    | none => exact absurd (List.getLast?_eq_none_iff.mp hd0) hne
    | some d0 =>
      rw [grow_last_rec_len_getLast _ _ _ hd0] at hdl
      obtain rfl : dl = { d0 with rec_len := d0.rec_len + (bs - st.position_in_block) } := by
        injection hdl with hh
        exact hh.symm
      have := h4 d0 (mem_of_getLast?_eq_some hd0)
      simp only
      omega

theorem dir_add_dentry_inv (bs : Nat) (st : dentry_write_state) (d : ext4_dentry)
    (hinv : writer_inv bs st)
    (hform : d.rec_len = next_multiple_of_four (d.name_len + 8))
    (hfit : d.rec_len ≤ bs) :
    writer_inv bs (dir_add_dentry bs st d) := by
  obtain ⟨h1, h2, h3, h4⟩ := hinv
  unfold dir_add_dentry dir_allocate_block
  split
  · -- spill to a new block
    split
    · -- current block empty: impossible, position is 0 and the dentry fits
      rename_i hlt hcur
      rw [hcur] at h1
      simp [sum_rec_len] at h1
      rw [h1] at hlt
      omega
    · rename_i hlt hcur
      refine ⟨by simp [sum_rec_len], by simpa using hfit, ?_, by simpa using hform⟩
      intro blk hblk
      simp only [List.mem_append, List.mem_singleton] at hblk
      rcases hblk with hblk | rfl
      · exact h3 blk hblk
      · exact block_ok_of_grow bs st ⟨h1, h2, h3, h4⟩ hcur
  · -- the dentry fits in the current block
    rename_i hge
    refine ⟨?_, ?_, h3, ?_⟩
    · simp [sum_rec_len, h1]
    · simp only
      omega
    · intro x hx
      simp only [List.mem_append, List.mem_singleton] at hx
      rcases hx with hx | rfl
      · exact h4 x hx
      · exact hform

theorem finalize_dir_ok (bs : Nat) (st : dentry_write_state)
    (hinv : writer_inv bs st) :
    ∀ blk ∈ finalize_dir bs st, block_ok bs blk := by
  obtain ⟨h1, h2, h3, h4⟩ := hinv
  unfold finalize_dir
  split
  · exact h3
  · rename_i hcur
    intro blk hblk
    simp only [List.mem_append, List.mem_singleton] at hblk
    rcases hblk with hblk | rfl
    · exact h3 blk hblk
    · exact block_ok_of_grow bs st ⟨h1, h2, h3, h4⟩ hcur

theorem foldl_add_dentry_inv (bs : Nat) (ds : List ext4_dentry)
    (st : dentry_write_state) (hinv : writer_inv bs st)
    (hds : ∀ d ∈ ds, d.rec_len = next_multiple_of_four (d.name_len + 8) ∧ d.rec_len ≤ bs) :
    writer_inv bs (ds.foldl (dir_add_dentry bs) st) := by
  induction ds generalizing st with
  | nil => exact hinv
  | cons d tl ih =>
    have hd := hds d (by simp)
    rw [List.foldl_cons]
    exact ih (dir_add_dentry bs st d)
      (dir_add_dentry_inv bs st d hinv hd.1 hd.2)
      (fun x hx => hds x (List.mem_cons_of_mem d hx))

/-- C8: in every finalized directory block produced by the tree builder,
each dentry's rec_len equals next_multiple_of_four(8 + name_len) except the
last dentry of the block, whose rec_len is grown so that the block's
rec_len values sum exactly to the block size. Hypotheses: the incoming
dentries carry the rec_len that build_dentry / build_special_dentry give
them, and each fits in a block (true for every ext4 block size, since
rec_len is at most 264). -/
theorem write_dir_blocks_rec_len_layout (bs : Nat) (ds : List ext4_dentry)
    (hds : ∀ d ∈ ds, d.rec_len = next_multiple_of_four (d.name_len + 8) ∧ d.rec_len ≤ bs) :
    ∀ blk ∈ write_dir_blocks bs ds,
      sum_rec_len blk = bs ∧
      (∀ d ∈ blk.dropLast, d.rec_len = next_multiple_of_four (d.name_len + 8)) ∧
      (∀ dl, blk.getLast? = some dl → next_multiple_of_four (dl.name_len + 8) ≤ dl.rec_len) := by
  have hinv0 : writer_inv bs dentry_write_init :=
    ⟨rfl, Nat.zero_le bs, by simp [dentry_write_init], by simp [dentry_write_init]⟩
  exact finalize_dir_ok bs _ (foldl_add_dentry_inv bs ds dentry_write_init hinv0 hds)

/-! ## C4: chain aggregation into extents -/

/-- Within one extent, the FAT links are consecutive: every cluster of the
extent except the last links to the next one. -/
def extent_intra (fat : Nat → Nat) (e : fat_extent) : Prop :=
  ∀ k, k + 1 < e.length → fat (e.physical_start + k) = e.physical_start + k + 1

/-- Logical tiling between two consecutively emitted extents. -/
def extent_tiles (e1 e2 : fat_extent) : Prop :=
  e2.logical_start = e1.logical_start + e1.length

/-- Boundary justification between two consecutively emitted extents: the
second starts at the link out of the first's last cluster, and the first
was closed because it reached the maximum length or because that link is
not physically contiguous. -/
def extent_boundary (fat : Nat → Nat) (e1 e2 : fat_extent) : Prop :=
  e2.physical_start = fat (e1.physical_start + e1.length - 1) ∧
  (e1.length = EXT4_MAX_INIT_EXTENT_LEN ∨
    e2.physical_start ≠ e1.physical_start + e1.length)

theorem aggregate_loop_spec (fat : Nat → Nat) (fuel : Nat) :
    ∀ cur next acc out,
      aggregate_loop fat fuel cur next acc = some out →
      next = fat (cur.physical_start + cur.length - 1) →
      1 ≤ cur.length → cur.length ≤ EXT4_MAX_INIT_EXTENT_LEN →
      extent_intra fat cur →
      ∃ tail, out = acc ++ tail ∧ tail ≠ [] ∧
        (∀ e ∈ tail, 1 ≤ e.length ∧ e.length ≤ EXT4_MAX_INIT_EXTENT_LEN ∧
          extent_intra fat e) ∧
        (∀ e0, tail.head? = some e0 → e0.logical_start = cur.logical_start ∧
          e0.physical_start = cur.physical_start ∧ cur.length ≤ e0.length) ∧
        List.Chain' extent_tiles tail ∧
        List.Chain' (extent_boundary fat) tail ∧
        (∀ eL, tail.getLast? = some eL →
          FAT_END_OF_CHAIN ≤ fat (eL.physical_start + eL.length - 1)) := by
  induction fuel with
  | zero =>
    intro cur next acc out h
    simp [aggregate_loop] at h
  | succ fuel ih =>
    intro cur next acc out h hnext hlen1 hlen2 hintra
    simp only [aggregate_loop] at h
    by_cases hend : FAT_END_OF_CHAIN ≤ next
    · rw [if_pos (Or.inl hend), if_pos hend] at h
      obtain rfl : acc ++ [cur] = out := by
        simpa using h
      refine ⟨[cur], rfl, by simp, ?_, ?_, by simp, by simp, ?_⟩
      · intro e he
        simp only [List.mem_singleton] at he
        subst he
        exact ⟨hlen1, hlen2, hintra⟩
      · intro e0 he0
        simp only [List.head?_cons, Option.some.injEq] at he0
        subst he0
        exact ⟨rfl, rfl, Nat.le_refl _⟩
      · intro eL heL
        simp only [List.getLast?_singleton, Option.some.injEq] at heL
        subst heL
        rw [← hnext]
        exact hend
    · by_cases hcons : next = cur.physical_start + cur.length
      · by_cases hmax : cur.length = EXT4_MAX_INIT_EXTENT_LEN
        · -- close at the length limit, continue with a fresh extent
          rw [if_pos (Or.inr (Or.inr hmax)), if_neg hend] at h
          obtain ⟨tail2, ho, hne, hall, hhead, htile, hbound, hlast⟩ :=
            ih ⟨cur.logical_start + cur.length, 1, next⟩ (fat next) (acc ++ [cur]) out h
              (by simp) (Nat.le_refl 1) (by norm_num [EXT4_MAX_INIT_EXTENT_LEN])
              (fun k hk => by dsimp only at hk; omega)
          refine ⟨cur :: tail2, by simpa using ho, by simp, ?_, ?_, ?_, ?_, ?_⟩
          · intro e he
            rcases List.mem_cons.mp he with rfl | he
            · exact ⟨hlen1, hlen2, hintra⟩
            · exact hall e he
          · intro e0 he0
            simp only [List.head?_cons, Option.some.injEq] at he0
            subst he0
            exact ⟨rfl, rfl, Nat.le_refl _⟩
          · rw [List.chain'_cons']
            refine ⟨?_, htile⟩
            intro e0 he0
            obtain ⟨hl, _, _⟩ := hhead e0 he0
            exact hl
          · rw [List.chain'_cons']
            refine ⟨?_, hbound⟩
            intro e0 he0
            obtain ⟨_, hp, _⟩ := hhead e0 he0
            exact ⟨by rw [hp, ← hnext], Or.inl hmax⟩
          · intro eL heL
            rw [getLast?_cons_ne_nil _ hne] at heL
            exact hlast eL heL
        · -- extend the current extent by one cluster
          rw [if_neg (by push_neg; exact ⟨Nat.lt_of_not_le hend, hcons, hmax⟩)] at h
          have hlt : cur.length < EXT4_MAX_INIT_EXTENT_LEN :=
            Nat.lt_of_le_of_ne hlen2 hmax
          obtain ⟨tail2, ho, hne, hall, hhead, htile, hbound, hlast⟩ :=
            ih ⟨cur.logical_start, cur.length + 1, cur.physical_start⟩ (fat next)
              (acc) out h
              (by
                have harg : cur.physical_start + (cur.length + 1) - 1 =
                    cur.physical_start + cur.length := by omega
                dsimp only
                rw [harg, ← hcons])
              (by dsimp only; omega) hlt
              (by
                intro k hk
                dsimp only at hk ⊢
                rcases Nat.lt_or_ge (k + 1) cur.length with hk2 | hk2
                · exact hintra k hk2
                · have hke : k + 1 = cur.length := by omega
                  have h1 : cur.physical_start + k = cur.physical_start + cur.length - 1 := by
                    omega
                  rw [h1, ← hnext, hcons]
                  omega)
          refine ⟨tail2, ho, hne, hall, ?_, htile, hbound, hlast⟩
          intro e0 he0
          obtain ⟨hl, hp, hlen⟩ := hhead e0 he0
          refine ⟨hl, hp, ?_⟩
          dsimp only at hlen
          omega
      · -- close at a non-contiguous link, continue with a fresh extent
        rw [if_pos (Or.inr (Or.inl hcons)), if_neg hend] at h
        obtain ⟨tail2, ho, hne, hall, hhead, htile, hbound, hlast⟩ :=
          ih ⟨cur.logical_start + cur.length, 1, next⟩ (fat next) (acc ++ [cur]) out h
            (by simp) (Nat.le_refl 1) (by norm_num [EXT4_MAX_INIT_EXTENT_LEN])
            (fun k hk => by dsimp only at hk; omega)
        refine ⟨cur :: tail2, by simpa using ho, by simp, ?_, ?_, ?_, ?_, ?_⟩
        · intro e he
          rcases List.mem_cons.mp he with rfl | he
          · exact ⟨hlen1, hlen2, hintra⟩
          · exact hall e he
        · intro e0 he0
          simp only [List.head?_cons, Option.some.injEq] at he0
          subst he0
          exact ⟨rfl, rfl, Nat.le_refl _⟩
        · rw [List.chain'_cons']
          refine ⟨?_, htile⟩
          intro e0 he0
          obtain ⟨hl, _, _⟩ := hhead e0 he0
          exact hl
        · rw [List.chain'_cons']
          refine ⟨?_, hbound⟩
          intro e0 he0
          obtain ⟨_, hp, _⟩ := hhead e0 he0
          refine ⟨by rw [hp, ← hnext], Or.inr ?_⟩
          rw [hp]
          exact hcons
        · intro eL heL
          rw [getLast?_cons_ne_nil _ hne] at heL
          exact hlast eL heL

/-- C4: every extent closed by aggregate_extents has length between 1 and
EXT4_MAX_INIT_EXTENT_LEN and covers physically consecutive clusters that
are consecutive links of the chain; the extents are emitted in chain order,
their logical_start values tiling the file contiguously from 0 (the first
extent starts at logical 0 on the chain's first cluster, each next extent
starts at the link out of the previous extent's last cluster); and an
extent boundary occurs exactly at a non-contiguous link or at the length
limit, the final extent ending because its last cluster's entry is in the
end-of-chain range. -/
theorem aggregate_extents_spec (fat : Nat → Nat) (fuel cluster_no : Nat)
    (out : List fat_extent)
    (h : aggregate_extents fat fuel cluster_no = some out) :
    (∀ e ∈ out, 1 ≤ e.length ∧ e.length ≤ EXT4_MAX_INIT_EXTENT_LEN ∧
      extent_intra fat e) ∧
    (∀ e0, out.head? = some e0 → e0.logical_start = 0 ∧
      e0.physical_start = cluster_no) ∧
    List.Chain' extent_tiles out ∧
    List.Chain' (extent_boundary fat) out ∧
    (∀ eL, out.getLast? = some eL →
      FAT_END_OF_CHAIN ≤ fat (eL.physical_start + eL.length - 1)) ∧
    (cluster_no = 0 → out = []) := by
  unfold aggregate_extents at h
  by_cases hc : cluster_no = 0
  · rw [if_pos hc] at h
    obtain rfl : out = [] := by simpa using h.symm
    exact ⟨by simp, by simp, by simp, by simp, by simp, fun _ => rfl⟩
  · rw [if_neg hc] at h
    obtain ⟨tail, rfl, hne, hall, hhead, htile, hbound, hlast⟩ :=
      aggregate_loop_spec fat fuel ⟨0, 1, cluster_no⟩ (fat cluster_no) [] out h
        (by simp) (Nat.le_refl 1) (by norm_num [EXT4_MAX_INIT_EXTENT_LEN])
        (fun k hk => by dsimp only at hk; omega)
    refine ⟨hall, ?_, htile, hbound, hlast, fun h0 => absurd h0 hc⟩
    intro e0 he0
    obtain ⟨hl, hp, _⟩ := hhead e0 he0
    exact ⟨by simpa using hl, by simpa using hp⟩

/-! ## Witnesses for the claims settled so far -/

/-- Witness for C3 at the concrete failing input of the final-block-group
test geometry: 512-byte sectors, 2 sectors per cluster (1 KiB blocks),
16444 sectors, hence 8222 blocks and blocks_per_group 8192, so the final
group holds only 30 blocks; blocks_count nevertheless stays 8222. -/
theorem init_ext4_sb_blocks_count_never_reduced_witness :
    ∃ sb, init_ext4_sb 512 2 16444 = some sb ∧
      block_count sb = 512 * 16444 / (512 * 2) ∧
      block_count sb = 8222 ∧
      block_count sb % sb.s_blocks_per_group = 30 := by
  have h : init_ext4_sb 512 2 16444 =
      some ⟨0, 1, 8192, 8192, 0, 512, 1024, 256, 64, 0, 8222, 0, 1, 0⟩ := by decide
  exact ⟨_, h,
    init_ext4_sb_blocks_count_never_reduced 512 2 16444 _
      (by norm_num) (by norm_num) (by norm_num) h,
    by decide, by decide⟩

/-- A concrete FAT for the C4 witness: the chain 2 → 3 → 4 → 10 → end. -/
def fat_chain_example : Nat → Nat :=
  fun c =>
    if c = 2 then 3
    else if c = 3 then 4
    else if c = 4 then 10
    else if c = 10 then 0x0FFFFFF8
    else 0

/-- Witness for C4: on the chain 2 → 3 → 4 → 10 → end the loop closes the
extents ⟨0, 3, 2⟩ and ⟨3, 1, 10⟩ and they satisfy the specification. -/
theorem aggregate_extents_spec_witness :
    ∃ out, aggregate_extents fat_chain_example 10 2 = some out ∧
      out = [⟨0, 3, 2⟩, ⟨3, 1, 10⟩] ∧
      (∀ e ∈ out, 1 ≤ e.length ∧ e.length ≤ EXT4_MAX_INIT_EXTENT_LEN ∧
        extent_intra fat_chain_example e) ∧
      List.Chain' extent_tiles out ∧
      List.Chain' (extent_boundary fat_chain_example) out := by
  have h : aggregate_extents fat_chain_example 10 2 = some [⟨0, 3, 2⟩, ⟨3, 1, 10⟩] := by
    decide
  have hs := aggregate_extents_spec fat_chain_example 10 2 _ h
  exact ⟨_, h, rfl, hs.1, hs.2.2.1, hs.2.2.2.1⟩

/-- Concrete dentries for the C8 witness: rec_lens 12, 12 and 16 written
into 32-byte blocks force one spill, growing the first block's second
dentry to the block end and the second block's single dentry to a full
block. -/
def dentries_example : List ext4_dentry :=
  [⟨2, 12, 1, [46]⟩, ⟨11, 12, 2, [46, 46]⟩, ⟨12, 16, 5, [104, 101, 108, 108, 111]⟩]

/-- Witness for C8 at block size 32 with dentries_example. -/
theorem write_dir_blocks_rec_len_layout_witness :
    (∀ d ∈ dentries_example,
      d.rec_len = next_multiple_of_four (d.name_len + 8) ∧ d.rec_len ≤ 32) ∧
    ∀ blk ∈ write_dir_blocks 32 dentries_example,
      sum_rec_len blk = 32 ∧
      (∀ d ∈ blk.dropLast, d.rec_len = next_multiple_of_four (d.name_len + 8)) ∧
      (∀ dl, blk.getLast? = some dl →
        next_multiple_of_four (dl.name_len + 8) ≤ dl.rec_len) :=
  ⟨by decide, write_dir_blocks_rec_len_layout 32 dentries_example (by decide)⟩

/-! ## C2 / C9: allocator correctness -/

/-- Cluster c lies outside blocked extent number j for every j: it is
before the extent's start or at/after its end. -/
def outside_all_blocked (l : List fat_extent) (c : Nat) : Prop :=
  ∀ j, j < l.length →
    c < (bext l j).physical_start ∨
    (bext l j).physical_start + (bext l j).length ≤ c

/-- The blocked extents are sorted by physical_start and pairwise disjoint:
each one ends no later than the next begins. init_extent_allocator
establishes this by qsorting the per-block-group overhead extents, which
cover disjoint ranges, with the end-of-filesystem sentinel last. -/
def blocked_chain (l : List fat_extent) : Prop :=
  ∀ j, j < l.length - 1 →
    (bext l j).physical_start + (bext l j).length ≤ (bext l (j + 1)).physical_start

/-- Well-formedness of the allocator state, established by
init_extent_allocator and preserved by every can_be_used step: the blocked
extents form a sorted disjoint chain whose final entry is the sentinel
(blocked_extent_count real extents plus the sentinel); the current blocked
pointer is in range; every blocked extent already passed ends at or before
the next cursor candidate index_in_fat + 1; and the cursor has not moved
beyond the end of the current blocked extent. -/
def alloc_wf (a : extent_allocator) : Prop :=
  blocked_chain a.blocked_extents ∧
  a.blocked_extents.length = a.blocked_extent_count + 1 ∧
  a.blocked_idx ≤ a.blocked_extent_count ∧
  (∀ j, j < a.blocked_idx →
    (bext a.blocked_extents j).physical_start + (bext a.blocked_extents j).length ≤
      a.index_in_fat + 1) ∧
  a.index_in_fat ≤
    (bext a.blocked_extents a.blocked_idx).physical_start +
      (bext a.blocked_extents a.blocked_idx).length

instance (l : List fat_extent) : Decidable (blocked_chain l) := by
  unfold blocked_chain
  infer_instance

instance (l : List fat_extent) (c : Nat) : Decidable (outside_all_blocked l c) := by
  unfold outside_all_blocked
  infer_instance

instance (a : extent_allocator) : Decidable (alloc_wf a) := by
  unfold alloc_wf
  infer_instance

theorem blocked_chain_pEnd_le_ps (l : List fat_extent) (hc : blocked_chain l) :
    ∀ j i, i < j → j < l.length →
      (bext l i).physical_start + (bext l i).length ≤ (bext l j).physical_start := by
  intro j
  induction j with
  | zero => omega
  | succ j ih =>
    intro i hij hj
    rcases Nat.lt_or_ge i j with h1 | h2
    · calc (bext l i).physical_start + (bext l i).length
          ≤ (bext l j).physical_start := ih i h1 (by omega)
        _ ≤ (bext l j).physical_start + (bext l j).length := Nat.le_add_right _ _
        _ ≤ (bext l (j + 1)).physical_start := hc j (by omega)
    · have : i = j := by omega
      subst this
      exact hc i (by omega)

theorem blocked_chain_ps_le_ps (l : List fat_extent) (hc : blocked_chain l)
    (i j : Nat) (hij : i ≤ j) (hj : j < l.length) :
    (bext l i).physical_start ≤ (bext l j).physical_start := by
  rcases Nat.lt_or_ge i j with h1 | h2
  · calc (bext l i).physical_start
        ≤ (bext l i).physical_start + (bext l i).length := Nat.le_add_right _ _
      _ ≤ (bext l j).physical_start := blocked_chain_pEnd_le_ps l hc j i h1 hj
  · have : i = j := by omega
    subst this
    exact Nat.le_refl _

theorem can_be_used_spec (a a2 : extent_allocator) (b : Bool)
    (hwf : alloc_wf a) (h : can_be_used a = some (a2, b)) :
    alloc_wf a2 ∧
    a2.blocked_extents = a.blocked_extents ∧
    a2.blocked_extent_count = a.blocked_extent_count ∧
    a2.bitmap = a.bitmap ∧
    a.index_in_fat ≤ a2.index_in_fat ∧
    (b = true →
      a2.index_in_fat = a.index_in_fat + 1 ∧
      is_free a a2.index_in_fat = true ∧
      outside_all_blocked a.blocked_extents a2.index_in_fat) := by
  obtain ⟨hchain, hlen, hidx, hpassed, hcursor⟩ := hwf
  simp only [can_be_used] at h
  split at h
  · -- cursor moves one step into the gap before the current blocked extent
    rename_i hlt
    obtain ⟨ha2, hb⟩ : { a with index_in_fat := a.index_in_fat + 1 } = a2 ∧
        is_free a (a.index_in_fat + 1) = b := by
      constructor
      · exact congrArg Prod.fst (Option.some.inj h)
      · exact congrArg Prod.snd (Option.some.inj h)
    subst ha2
    refine ⟨⟨hchain, hlen, hidx, ?_, ?_⟩, rfl, rfl, rfl, by dsimp only; omega, ?_⟩
    · intro j hj
      have := hpassed j hj
      dsimp only
      omega
    · dsimp only
      omega
    · intro hbt
      refine ⟨rfl, hb.trans hbt, ?_⟩
      intro j hj
      dsimp only
      rcases Nat.lt_or_ge j a.blocked_idx with hja | hja
      · right
        have := hpassed j hja
        omega
      · left
        have := blocked_chain_ps_le_ps a.blocked_extents hchain a.blocked_idx j hja hj
        omega
  · -- cursor jumps past the current blocked extent
    rename_i hge
    split at h
    · exact absurd h (by simp)
    · rename_i hfull
      obtain ⟨ha2, hb⟩ : { a with
          index_in_fat :=
            (bext a.blocked_extents a.blocked_idx).physical_start +
              (bext a.blocked_extents a.blocked_idx).length,
          blocked_idx := a.blocked_idx + 1 } = a2 ∧ false = b := by
        constructor
        · exact congrArg Prod.fst (Option.some.inj h)
        · exact congrArg Prod.snd (Option.some.inj h)
      subst ha2
      have hbi1 : a.blocked_idx + 1 ≤ a.blocked_extent_count := by omega
      have hbilen : a.blocked_idx + 1 < a.blocked_extents.length := by omega
      refine ⟨⟨hchain, hlen, hbi1, ?_, ?_⟩, rfl, rfl, rfl,
        by dsimp only; omega, ?_⟩
      · intro j hj
        dsimp only at hj ⊢
        rcases Nat.lt_or_ge j a.blocked_idx with hja | hja
        · have := blocked_chain_pEnd_le_ps a.blocked_extents hchain a.blocked_idx j hja
            (by omega)
          omega
        · have : j = a.blocked_idx := by omega
          subst this
          omega
      · dsimp only
        have hstep := hchain a.blocked_idx (by omega)
        omega
      · intro hb2
        exact absurd (hb.trans hb2) (by simp)

theorem alloc_wf_set_used (a : extent_allocator) (x : Nat) :
    alloc_wf (set_used a x) ↔ alloc_wf a := Iff.rfl

theorem skip_to_usable_spec (fuel : Nat) :
    ∀ a a2, alloc_wf a → skip_to_usable fuel a = some a2 →
      alloc_wf a2 ∧
      a2.blocked_extents = a.blocked_extents ∧
      a2.blocked_extent_count = a.blocked_extent_count ∧
      a2.bitmap = a.bitmap ∧
      a.index_in_fat < a2.index_in_fat ∧
      is_free a a2.index_in_fat = true ∧
      outside_all_blocked a.blocked_extents a2.index_in_fat := by
  induction fuel with
  | zero =>
    intro a a2 hwf h
    simp [skip_to_usable] at h
  | succ fuel ih =>
    intro a a2 hwf h
    simp only [skip_to_usable] at h
    cases hc : can_be_used a with
    | none => rw [hc] at h; simp at h
    | some p =>
      obtain ⟨amid, b⟩ := p
      rw [hc] at h
      obtain ⟨hwf2, hbl, hct, hbm, hmono, htrue⟩ := can_be_used_spec a amid b hwf hc
      cases b with
      | true =>
        simp only [Option.some.injEq] at h
        subst h
        obtain ⟨hstep, hfree, hout⟩ := htrue rfl
        exact ⟨hwf2, hbl, hct, hbm, by omega, hfree, hout⟩
      | false =>
        obtain ⟨hwf3, hbl3, hct3, hbm3, hmono3, hfree3, hout3⟩ := ih amid a2 hwf2 h
        refine ⟨hwf3, hbl3.trans hbl, hct3.trans hct, hbm3.trans hbm, by omega, ?_, ?_⟩
        · unfold is_free at hfree3 ⊢
          rw [← hbm]
          exact hfree3
        · rw [← hbl]
          exact hout3

theorem extend_extent_spec (fuel : Nat) :
    ∀ r maxLen a e a2, alloc_wf a →
      a.index_in_fat + 1 = r.physical_start + r.length →
      extend_extent fuel r maxLen a = some (e, a2) →
      e.physical_start = r.physical_start ∧
      e.logical_start = r.logical_start ∧
      r.length ≤ e.length ∧
      (r.length ≤ maxLen → e.length ≤ maxLen) ∧
      alloc_wf a2 ∧
      a2.blocked_extents = a.blocked_extents ∧
      a2.blocked_extent_count = a.blocked_extent_count ∧
      a.index_in_fat ≤ a2.index_in_fat ∧
      e.physical_start + e.length ≤ a2.index_in_fat + 1 ∧
      (∀ c, r.physical_start + r.length ≤ c → c < e.physical_start + e.length →
        is_free a c = true ∧ outside_all_blocked a.blocked_extents c) ∧
      (∀ c, a2.bitmap c =
        if r.physical_start + r.length ≤ c ∧ c < e.physical_start + e.length then true
        else a.bitmap c) := by
  induction fuel with
  | zero =>
    intro r maxLen a e a2 hwf hrel h
    simp only [extend_extent, Option.some.injEq, Prod.mk.injEq] at h
    obtain ⟨rfl, rfl⟩ := h
    refine ⟨rfl, rfl, Nat.le_refl _, fun hm => hm, hwf, rfl, rfl, Nat.le_refl _,
      by omega, fun c h1 h2 => absurd (Nat.lt_of_le_of_lt h1 h2) (by omega), ?_⟩
    intro c
    rw [if_neg (by omega)]
  | succ fuel ih =>
    intro r maxLen a e a2 hwf hrel h
    simp only [extend_extent] at h
    split at h
    · rename_i hguard
      cases hc : can_be_used a with
      | none => rw [hc] at h; simp at h
      | some p =>
        obtain ⟨amid, b⟩ := p
        rw [hc] at h
        obtain ⟨hwf2, hbl, hct, hbm, hmono, htrue⟩ := can_be_used_spec a amid b hwf hc
        cases b with
        | false =>
          simp only [Option.some.injEq, Prod.mk.injEq] at h
          obtain ⟨rfl, rfl⟩ := h
          refine ⟨rfl, rfl, Nat.le_refl _, fun hm => hm, hwf2, hbl, hct, hmono,
            by omega, fun c h1 h2 => absurd (Nat.lt_of_le_of_lt h1 h2) (by omega), ?_⟩
          intro c
          rw [if_neg (by omega), hbm]
        | true =>
          obtain ⟨hstep, hfree, hout⟩ := htrue rfl
          have hidx : amid.index_in_fat = r.physical_start + r.length := by omega
          have hr2len : amid.index_in_fat - r.physical_start + 1 = r.length + 1 := by
            omega
          have hrel3 : (set_used amid amid.index_in_fat).index_in_fat + 1 =
              r.physical_start + (r.length + 1) := by
            simp only [set_used]
            omega
          have h2 : extend_extent fuel
              { r with length := amid.index_in_fat - r.physical_start + 1 } maxLen
              (set_used amid amid.index_in_fat) = some (e, a2) := h
          rw [hr2len] at h2
          obtain ⟨hps, hls, hlen, hmax, hwf4, hbl4, hct4, hmono4, hend4, hclust4, hbm4⟩ :=
            ih { r with length := r.length + 1 } maxLen
              (set_used amid amid.index_in_fat) e a2
              ((alloc_wf_set_used amid amid.index_in_fat).mpr hwf2) hrel3 h2
          have hblm : (set_used amid amid.index_in_fat).blocked_extents =
              a.blocked_extents := hbl
          have hctm : (set_used amid amid.index_in_fat).blocked_extent_count =
              a.blocked_extent_count := hct
          have hlen2 : r.length + 1 ≤ e.length := hlen
          have hmax2 : r.length + 1 ≤ maxLen → e.length ≤ maxLen := hmax
          have hmono4b : amid.index_in_fat ≤ a2.index_in_fat := hmono4
          have hps2 : e.physical_start = r.physical_start := hps
          have hls2 : e.logical_start = r.logical_start := hls
          have hend4b : e.physical_start + e.length ≤ a2.index_in_fat + 1 := hend4
          have hclust4b : ∀ c, r.physical_start + (r.length + 1) ≤ c →
              c < e.physical_start + e.length →
              is_free (set_used amid amid.index_in_fat) c = true ∧
                outside_all_blocked a.blocked_extents c := by
            intro c hc1 hc2
            obtain ⟨hf, ho⟩ := hclust4 c hc1 hc2
            refine ⟨hf, ?_⟩
            rw [← hblm]
            exact ho
          have hbm4b : ∀ c, a2.bitmap c =
              if r.physical_start + (r.length + 1) ≤ c ∧ c < e.physical_start + e.length
              then true else (set_used amid amid.index_in_fat).bitmap c := hbm4
          refine ⟨hps2, hls2, by omega, fun hm => hmax2 (by omega), hwf4,
            hbl4.trans hblm, hct4.trans hctm, by omega, hend4b, ?_, ?_⟩
          · intro c h1 h2
            rcases Nat.lt_or_ge c (r.physical_start + (r.length + 1)) with hcc | hcc
            · have hceq : c = amid.index_in_fat := by omega
              subst hceq
              exact ⟨hfree, hout⟩
            · obtain ⟨hf, ho⟩ := hclust4b c hcc h2
              refine ⟨?_, ho⟩
              unfold is_free at hf ⊢
              simp only [set_used] at hf
              rw [if_neg (by omega)] at hf
              rw [← hbm]
              exact hf
          · intro c
            have hb4 := hbm4b c
            simp only [set_used] at hb4
            by_cases hin : r.physical_start + r.length ≤ c ∧
                c < e.physical_start + e.length
            · rw [if_pos hin]
              rcases Nat.lt_or_ge c (r.physical_start + (r.length + 1)) with hcc | hcc
              · have hceq : c = amid.index_in_fat := by omega
                rw [hb4, if_neg (by omega), if_pos hceq]
              · rw [hb4, if_pos ⟨hcc, hin.2⟩]
            · rw [if_neg hin]
              rcases Nat.lt_or_ge c (r.physical_start + r.length) with h5 | h5
              · rw [hb4, if_neg (by omega), if_neg (by omega), ← hbm]
              · have h6 : e.physical_start + e.length ≤ c := by
                  by_contra hx
                  push_neg at hx
                  exact hin ⟨h5, hx⟩
                have h7 : ¬ (r.physical_start + (r.length + 1) ≤ c ∧
                    c < e.physical_start + e.length) := by omega
                have h8 : ¬ (c = amid.index_in_fat) := by omega
                rw [hb4, if_neg h7, if_neg h8, ← hbm]
    · rename_i hguard
      simp only [Option.some.injEq, Prod.mk.injEq] at h
      obtain ⟨rfl, rfl⟩ := h
      refine ⟨rfl, rfl, Nat.le_refl _, fun hm => hm, hwf, rfl, rfl, Nat.le_refl _,
        by omega, fun c h1 h2 => absurd (Nat.lt_of_le_of_lt h1 h2) (by omega), ?_⟩
      intro c
      rw [if_neg (by omega)]

theorem allocate_extent_master (fuel maxLen : Nat) (a : extent_allocator)
    (e : fat_extent) (a2 : extent_allocator)
    (hwf : alloc_wf a) (h : allocate_extent fuel maxLen a = some (e, a2)) :
    e.logical_start = 0 ∧
    1 ≤ e.length ∧
    (1 ≤ maxLen → e.length ≤ maxLen) ∧
    alloc_wf a2 ∧
    a2.blocked_extents = a.blocked_extents ∧
    a2.blocked_extent_count = a.blocked_extent_count ∧
    a.index_in_fat < e.physical_start ∧
    a.index_in_fat ≤ a2.index_in_fat ∧
    e.physical_start + e.length ≤ a2.index_in_fat + 1 ∧
    (∀ c, e.physical_start ≤ c → c < e.physical_start + e.length →
      is_free a c = true ∧ outside_all_blocked a.blocked_extents c) ∧
    (∀ c, a2.bitmap c =
      if e.physical_start ≤ c ∧ c < e.physical_start + e.length then true
      else a.bitmap c) := by
  unfold allocate_extent at h
  cases hs : skip_to_usable fuel a with
  | none => rw [hs] at h; simp at h
  | some askip =>
    rw [hs] at h
    obtain ⟨hwfs, hbls, hcts, hbms, hmonos, hfrees, houts⟩ :=
      skip_to_usable_spec fuel a askip hwf hs
    have hrel : (set_used askip askip.index_in_fat).index_in_fat + 1 =
        (⟨0, 1, askip.index_in_fat⟩ : fat_extent).physical_start +
          (⟨0, 1, askip.index_in_fat⟩ : fat_extent).length := rfl
    obtain ⟨hps, hls, hlen, hmax, hwf4, hbl4, hct4, hmono4, hend4, hclust4, hbm4⟩ :=
      extend_extent_spec maxLen ⟨0, 1, askip.index_in_fat⟩ maxLen
        (set_used askip askip.index_in_fat) e a2
        ((alloc_wf_set_used askip askip.index_in_fat).mpr hwfs) hrel h
    have hps2 : e.physical_start = askip.index_in_fat := hps
    have hls2 : e.logical_start = 0 := hls
    have hlen2 : 1 ≤ e.length := hlen
    have hmax2 : 1 ≤ maxLen → e.length ≤ maxLen := hmax
    have hbl4b : a2.blocked_extents = a.blocked_extents := by
      rw [hbl4]
      exact hbls
    have hct4b : a2.blocked_extent_count = a.blocked_extent_count := by
      rw [hct4]
      exact hcts
    have hmono4b : askip.index_in_fat ≤ a2.index_in_fat := hmono4
    have hend4b : e.physical_start + e.length ≤ a2.index_in_fat + 1 := hend4
    have hclust4b : ∀ c, askip.index_in_fat + 1 ≤ c →
        c < e.physical_start + e.length →
        is_free (set_used askip askip.index_in_fat) c = true ∧
          outside_all_blocked a.blocked_extents c := by
      intro c h1 h2
      obtain ⟨hf, ho⟩ := hclust4 c h1 h2
      refine ⟨hf, ?_⟩
      rw [← hbls]
      exact ho
    have hbm4b : ∀ c, a2.bitmap c =
        if askip.index_in_fat + 1 ≤ c ∧ c < e.physical_start + e.length then true
        else (set_used askip askip.index_in_fat).bitmap c := hbm4
    refine ⟨hls2, hlen2, hmax2, hwf4, hbl4b, hct4b, by omega, by omega, hend4b,
      ?_, ?_⟩
    · intro c h1 h2
      rcases Nat.lt_or_ge c (askip.index_in_fat + 1) with hcc | hcc
      · have hceq : c = askip.index_in_fat := by omega
        subst hceq
        exact ⟨hfrees, houts⟩
      · obtain ⟨hf, ho⟩ := hclust4b c hcc h2
        refine ⟨?_, ho⟩
        unfold is_free at hf ⊢
        simp only [set_used] at hf
        rw [if_neg (by omega)] at hf
        rw [← hbms]
        exact hf
    · intro c
      have hb4 := hbm4b c
      simp only [set_used] at hb4
      by_cases hin : e.physical_start ≤ c ∧ c < e.physical_start + e.length
      · rw [if_pos hin]
        rcases Nat.lt_or_ge c (askip.index_in_fat + 1) with hcc | hcc
        · have hceq : c = askip.index_in_fat := by omega
          rw [hb4, if_neg (by omega), if_pos hceq]
        · rw [hb4, if_pos ⟨hcc, hin.2⟩]
      · rw [if_neg hin]
        have h5 : c < e.physical_start ∨ e.physical_start + e.length ≤ c := by
          by_contra hx
          push_neg at hx
          exact hin ⟨hx.1, hx.2⟩
        rcases h5 with h5 | h5
        · rw [hb4, if_neg (by omega), if_neg (by omega), ← hbms]
        · rw [hb4, if_neg (by omega), if_neg (by omega), ← hbms]

/-- C2: every extent returned by allocate_extent(max_length) with
max_length at least 1 covers between 1 and max_length physically
consecutive clusters (the range physical_start .. physical_start+length-1);
each of those clusters was free in the allocation bitmap at the call and
lies outside every blocked extent; and on return each of them is marked
used in the bitmap. -/
theorem allocate_extent_spec (fuel maxLen : Nat) (a : extent_allocator)
    (e : fat_extent) (a2 : extent_allocator)
    (hwf : alloc_wf a) (hmax : 1 ≤ maxLen)
    (h : allocate_extent fuel maxLen a = some (e, a2)) :
    1 ≤ e.length ∧ e.length ≤ maxLen ∧
    ∀ c, e.physical_start ≤ c → c < e.physical_start + e.length →
      is_free a c = true ∧ outside_all_blocked a.blocked_extents c ∧
      a2.bitmap c = true := by
  obtain ⟨_, hlen1, hmaxlen, _, _, _, _, _, _, hclust, hbm⟩ :=
    allocate_extent_master fuel maxLen a e a2 hwf h
  refine ⟨hlen1, hmaxlen hmax, ?_⟩
  intro c h1 h2
  obtain ⟨hf, ho⟩ := hclust c h1 h2
  refine ⟨hf, ho, ?_⟩
  rw [hbm c, if_pos ⟨h1, h2⟩]

/-- A small well-formed allocator: cursor at cluster 2, clusters 0..2 used,
everything else free, one blocked extent (the end-of-filesystem sentinel at
cluster 100) and blocked_extent_count = 0. -/
def alloc_example : extent_allocator :=
  { index_in_fat := 2
    blocked_extent_count := 0
    blocked_extents := [⟨0, 1, 100⟩]
    blocked_idx := 0
    bitmap := fun c => decide (c < 3) }

/-- Witness for C2: allocate_extent 2 on alloc_example returns the extent
⟨0, 2, 3⟩ and the specification holds for it. -/
theorem allocate_extent_spec_witness :
    alloc_wf alloc_example ∧ (1 : Nat) ≤ 2 ∧
    ∃ p : fat_extent × extent_allocator,
      allocate_extent 5 2 alloc_example = some p ∧
      1 ≤ p.1.length ∧ p.1.length ≤ 2 ∧
      ∀ c, p.1.physical_start ≤ c → c < p.1.physical_start + p.1.length →
        is_free alloc_example c = true ∧
        outside_all_blocked alloc_example.blocked_extents c ∧
        p.2.bitmap c = true := by
  have hwf : alloc_wf alloc_example := by decide
  refine ⟨hwf, by norm_num, ?_⟩
  cases hr : allocate_extent 5 2 alloc_example with
  | none =>
    have hsome : (allocate_extent 5 2 alloc_example).isSome = true := by rfl
    rw [hr] at hsome
    simp at hsome
  | some p =>
    obtain ⟨e, a2⟩ := p
    have hs := allocate_extent_spec 5 2 alloc_example e a2 hwf (by norm_num) hr
    exact ⟨(e, a2), rfl, hs.1, hs.2.1, hs.2.2⟩

theorem allocate_run_spec (fuel : Nat) :
    ∀ ms a es a2, alloc_wf a → (∀ m ∈ ms, 1 ≤ m) →
      allocate_run fuel ms a = some (es, a2) →
      alloc_wf a2 ∧
      a2.blocked_extents = a.blocked_extents ∧
      a.index_in_fat ≤ a2.index_in_fat ∧
      (∀ x ∈ es, a.index_in_fat < x.physical_start ∧
        x.physical_start + x.length ≤ a2.index_in_fat + 1) ∧
      List.Pairwise
        (fun e1 e2 => e1.physical_start + e1.length ≤ e2.physical_start) es := by
  intro ms
  induction ms with
  | nil =>
    intro a es a2 hwf _ h
    simp only [allocate_run, Option.some.injEq, Prod.mk.injEq] at h
    obtain ⟨rfl, rfl⟩ := h
    exact ⟨hwf, rfl, Nat.le_refl _, by simp, List.Pairwise.nil⟩
  | cons m ms ih =>
    intro a es a2 hwf hms h
    simp only [allocate_run] at h
    cases hr : allocate_extent fuel m a with
    | none => rw [hr] at h; simp at h
    | some q =>
      obtain ⟨e, amid⟩ := q
      rw [hr] at h
      have h2 : (match allocate_run fuel ms amid with
          | none => none
          | some (es2, a3) => some (e :: es2, a3)) = some (es, a2) := h
      cases hrun : allocate_run fuel ms amid with
      | none => rw [hrun] at h2; simp at h2
      | some q2 =>
        obtain ⟨es2, a3⟩ := q2
        rw [hrun] at h2
        simp only [Option.some.injEq, Prod.mk.injEq] at h2
        obtain ⟨rfl, rfl⟩ := h2
        obtain ⟨_, _, _, hwfm, hblm, _, hlt, hmono, hendm, _, _⟩ :=
          allocate_extent_master fuel m a e amid hwf hr
        obtain ⟨hwf3, hbl3, hmono3, hxf3, hpw3⟩ := ih amid es2 a3 hwfm
          (fun x hx => hms x (List.mem_cons_of_mem m hx)) hrun
        refine ⟨hwf3, hbl3.trans hblm, by omega, ?_, ?_⟩
        · intro x hx
          rcases List.mem_cons.mp hx with rfl | hx
          · exact ⟨hlt, by omega⟩
          · obtain ⟨hx1, hx2⟩ := hxf3 x hx
            exact ⟨by omega, hx2⟩
        · rw [List.pairwise_cons]
          refine ⟨?_, hpw3⟩
          intro x hx
          obtain ⟨hx1, _⟩ := hxf3 x hx
          omega

/-- C9 amended: across any sequence of successful allocate_extent calls in
one run, the returned extents are pairwise disjoint (no cluster is issued
twice) and are returned in increasing physical order: each later extent's
physical_start is at least the physical end (physical_start + length,
equivalently strictly greater than the last cluster) of every earlier one.
Equality with the physical end does occur, so the physical_start is not
always strictly greater than the previous extent's physical end. -/
theorem allocate_run_extents_ordered_disjoint (fuel : Nat) (ms : List Nat)
    (a : extent_allocator) (es : List fat_extent) (a2 : extent_allocator)
    (hwf : alloc_wf a) (hms : ∀ m ∈ ms, 1 ≤ m)
    (h : allocate_run fuel ms a = some (es, a2)) :
    List.Pairwise
      (fun e1 e2 => e1.physical_start + e1.length ≤ e2.physical_start) es ∧
    List.Pairwise (fun e1 e2 => ∀ c, e1.physical_start ≤ c →
      c < e1.physical_start + e1.length →
      ¬(e2.physical_start ≤ c ∧ c < e2.physical_start + e2.length)) es := by
  obtain ⟨_, _, _, _, hpw⟩ := allocate_run_spec fuel ms a es a2 hwf hms h
  refine ⟨hpw, hpw.imp ?_⟩
  intro e1 e2 h12 c hc1 hc2 hc3
  omega

/-- C9 counterexample: the claim requires each returned extent's
physical_start to be strictly greater than the physical end of the
previously returned extent. Two consecutive allocate_extent(1) calls on the
well-formed allocator alloc_example return the adjacent extents ⟨0, 1, 3⟩
and ⟨0, 1, 4⟩, whose physical_start 4 equals (is not strictly greater
than) the previous physical end 3 + 1. -/
theorem allocate_run_adjacent_counterexample :
    alloc_wf alloc_example ∧
    (allocate_run 5 [1, 1] alloc_example).map Prod.fst =
      some [⟨0, 1, 3⟩, ⟨0, 1, 4⟩] ∧
    ¬((⟨0, 1, 3⟩ : fat_extent).physical_start + (⟨0, 1, 3⟩ : fat_extent).length <
      (⟨0, 1, 4⟩ : fat_extent).physical_start) := by
  refine ⟨by decide, by rfl, by decide⟩

/-- Witness for C9 on the run [1, 2] over alloc_example. -/
theorem allocate_run_extents_ordered_disjoint_witness :
    alloc_wf alloc_example ∧
    ∃ p : List fat_extent × extent_allocator,
      allocate_run 5 [1, 2] alloc_example = some p ∧
      List.Pairwise
        (fun e1 e2 => e1.physical_start + e1.length ≤ e2.physical_start) p.1 := by
  have hwf : alloc_wf alloc_example := by decide
  refine ⟨hwf, ?_⟩
  cases hr : allocate_run 5 [1, 2] alloc_example with
  | none =>
    have hsome : (allocate_run 5 [1, 2] alloc_example).isSome = true := by rfl
    rw [hr] at hsome
    simp at hsome
  | some p =>
    exact ⟨p, rfl,
      (allocate_run_extents_ordered_disjoint 5 [1, 2] alloc_example p.1 p.2 hwf
        (by decide) hr).1⟩

/-! ## C10: bitmap_set_bits refines the naive bit loop -/

theorem bitmap_set_bit_get (mem : Nat → Nat) (b i : Nat) :
    bitmap_get_bit (bitmap_set_bit mem b) i =
      (bitmap_get_bit mem i || decide (i = b)) := by
  unfold bitmap_get_bit bitmap_set_bit
  by_cases hk : i / 8 = b / 8
  · rw [if_pos hk, Nat.testBit_lor, Nat.one_shiftLeft]
    rw [Nat.testBit_two_pow ..]
    congr 1
    exact decide_eq_decide.mpr (by omega)
  · rw [if_neg hk]
    have hne : ¬(i = b) := by omega
    simp [hne]

theorem bitmap_set_bit_lt (mem : Nat → Nat) (hmem : ∀ k, mem k < 256) (b : Nat) :
    ∀ k, bitmap_set_bit mem b k < 256 := by
  intro k
  unfold bitmap_set_bit
  split
  · refine @Nat.or_lt_two_pow (mem k) _ 8 (hmem k) ?_
    rw [Nat.one_shiftLeft]
    have hb : b % 8 < 8 := Nat.mod_lt _ (by norm_num)
    exact Nat.pow_lt_pow_right (by norm_num) hb
  · exact hmem k

theorem bitmap_set_bits_loop_get (n : Nat) :
    ∀ mem b i, bitmap_get_bit (bitmap_set_bits_loop mem b n) i =
      (bitmap_get_bit mem i || decide (b ≤ i ∧ i < b + n)) := by
  induction n with
  | zero =>
    intro mem b i
    simp only [bitmap_set_bits_loop]
    rw [decide_eq_false (by omega : ¬(b ≤ i ∧ i < b + 0))]
    simp
  | succ n ih =>
    intro mem b i
    simp only [bitmap_set_bits_loop]
    rw [ih, bitmap_set_bit_get, Bool.or_assoc]
    congr 1
    rw [show (decide (i = b) || decide (b + 1 ≤ i ∧ i < b + 1 + n)) =
        decide ((i = b) ∨ (b + 1 ≤ i ∧ i < b + 1 + n)) from by simp]
    exact decide_eq_decide.mpr (by omega)

theorem bitmap_set_bits_loop_lt (n : Nat) :
    ∀ mem b, (∀ k, mem k < 256) → ∀ k, bitmap_set_bits_loop mem b n k < 256 := by
  induction n with
  | zero => intro mem b hmem k; exact hmem k
  | succ n ih =>
    intro mem b hmem k
    exact ih _ _ (bitmap_set_bit_lt mem hmem b) k

theorem testBit_byte_add (b0 rest t : Nat) (h0 : b0 < 256) :
    (b0 + 256 * rest).testBit t =
      if t < 8 then b0.testBit t else rest.testBit (t - 8) := by
  have h : b0 + 256 * rest = 2 ^ 8 * rest + b0 := by ring
  rw [h, Nat.testBit_mul_pow_two_add rest h0 t]

theorem word_get_testBit (mem : Nat → Nat) (hmem : ∀ k, mem k < 256)
    (j t : Nat) (ht : t < 32) :
    (word_get mem j).testBit t = bitmap_get_bit mem (32 * j + t) := by
  unfold word_get
  rw [Nat.mod_eq_of_lt (hmem (4 * j)), Nat.mod_eq_of_lt (hmem (4 * j + 1)),
    Nat.mod_eq_of_lt (hmem (4 * j + 2)), Nat.mod_eq_of_lt (hmem (4 * j + 3))]
  rw [testBit_byte_add _ _ _ (hmem (4 * j))]
  unfold bitmap_get_bit
  by_cases h1 : t < 8
  · rw [if_pos h1, show (32 * j + t) / 8 = 4 * j from by omega,
      show (32 * j + t) % 8 = t from by omega]
  · rw [if_neg h1, testBit_byte_add _ _ _ (hmem (4 * j + 1))]
    by_cases h2 : t - 8 < 8
    · rw [if_pos h2, show (32 * j + t) / 8 = 4 * j + 1 from by omega,
        show (32 * j + t) % 8 = t - 8 from by omega]
    · rw [if_neg h2, testBit_byte_add _ _ _ (hmem (4 * j + 2))]
      by_cases h3 : t - 8 - 8 < 8
      · rw [if_pos h3, show (32 * j + t) / 8 = 4 * j + 2 from by omega,
          show (32 * j + t) % 8 = t - 8 - 8 from by omega]
      · rw [if_neg h3, show (32 * j + t) / 8 = 4 * j + 3 from by omega,
          show (32 * j + t) % 8 = t - 8 - 8 - 8 from by omega]

theorem word_set_get_bit (mem : Nat → Nat) (j v i : Nat) :
    bitmap_get_bit (word_set mem j v) i =
      if 32 * j ≤ i ∧ i < 32 * j + 32 then v.testBit (i - 32 * j)
      else bitmap_get_bit mem i := by
  unfold bitmap_get_bit word_set
  have h256 : (256 : Nat) = 2 ^ 8 := by norm_num
  have h65536 : (65536 : Nat) = 2 ^ 16 := by norm_num
  have h2_24 : (16777216 : Nat) = 2 ^ 24 := by norm_num
  by_cases h0 : i / 8 = 4 * j
  · rw [if_pos h0, if_pos (by omega), h256, Nat.testBit_mod_two_pow]
    rw [show i - 32 * j = i % 8 from by omega]
    have : i % 8 < 8 := Nat.mod_lt _ (by norm_num)
    simp [this]
  · rw [if_neg h0]
    by_cases h1 : i / 8 = 4 * j + 1
    · rw [if_pos h1, if_pos (by omega), h256, Nat.testBit_mod_two_pow,
        ← Nat.shiftRight_eq_div_pow, Nat.testBit_shiftRight]
      rw [show 8 + i % 8 = i - 32 * j from by omega]
      have : i % 8 < 8 := Nat.mod_lt _ (by norm_num)
      simp [this]
    · rw [if_neg h1]
      by_cases h2 : i / 8 = 4 * j + 2
      · rw [if_pos h2, if_pos (by omega), h256, h65536, Nat.testBit_mod_two_pow,
          ← Nat.shiftRight_eq_div_pow, Nat.testBit_shiftRight]
        rw [show 16 + i % 8 = i - 32 * j from by omega]
        have : i % 8 < 8 := Nat.mod_lt _ (by norm_num)
        simp [this]
      · rw [if_neg h2]
        by_cases h3 : i / 8 = 4 * j + 3
        · rw [if_pos h3, if_pos (by omega), h256, h2_24, Nat.testBit_mod_two_pow,
            ← Nat.shiftRight_eq_div_pow, Nat.testBit_shiftRight]
          rw [show 24 + i % 8 = i - 32 * j from by omega]
          have : i % 8 < 8 := Nat.mod_lt _ (by norm_num)
          simp [this]
        · rw [if_neg h3, if_neg (by omega)]

theorem word_set_lt (mem : Nat → Nat) (hmem : ∀ k, mem k < 256) (j v : Nat) :
    ∀ k, word_set mem j v k < 256 := by
  intro k
  unfold word_set
  split
  · exact Nat.mod_lt _ (by norm_num)
  · split
    · exact Nat.mod_lt _ (by norm_num)
    · split
      · exact Nat.mod_lt _ (by norm_num)
      · split
        · exact Nat.mod_lt _ (by norm_num)
        · exact hmem k

theorem fill_words_get_bit (n : Nat) :
    ∀ mem j i, bitmap_get_bit (fill_words mem j n) i =
      if 32 * j ≤ i ∧ i < 32 * (j + n) then true else bitmap_get_bit mem i := by
  induction n with
  | zero =>
    intro mem j i
    simp only [fill_words]
    rw [if_neg (by omega)]
  | succ n ih =>
    intro mem j i
    simp only [fill_words]
    rw [ih, word_set_get_bit]
    by_cases hin : 32 * j ≤ i ∧ i < 32 * (j + (n + 1))
    · rw [if_pos hin]
      by_cases hfirst : 32 * j ≤ i ∧ i < 32 * j + 32
      · rw [if_neg (by omega), if_pos hfirst]
        rw [show (0xFFFFFFFF : Nat) = 2 ^ 32 - 1 from by norm_num,
          Nat.testBit_two_pow_sub_one]
        simp
        omega
      · rw [if_pos (by omega)]
    · rw [if_neg hin, if_neg (by omega), if_neg (by omega)]

theorem fill_words_lt (n : Nat) :
    ∀ mem j, (∀ k, mem k < 256) → ∀ k, fill_words mem j n k < 256 := by
  induction n with
  | zero => intro mem j hmem k; exact hmem k
  | succ n ih =>
    intro mem j hmem k
    exact ih _ _ (word_set_lt mem hmem j 0xFFFFFFFF) k

theorem fillLSBs_testBit (len t : Nat) :
    (fillLSBs len).testBit t = decide (t < len) := by
  unfold fillLSBs
  rw [Nat.one_shiftLeft, Nat.testBit_two_pow_sub_one]

theorem compl32_testBit (x t : Nat) :
    (compl32 x).testBit t = (Bool.xor (x.testBit t) (decide (t < 32))) := by
  unfold compl32
  rw [Nat.testBit_xor]
  congr 1
  rw [show (0xFFFFFFFF : Nat) = 2 ^ 32 - 1 from by norm_num,
    Nat.testBit_two_pow_sub_one]

theorem bitmap_set_bits_get (mem : Nat → Nat) (hmem : ∀ k, mem k < 256)
    (bbegin bend : Nat) (hle : bbegin ≤ bend) :
    ∀ i, bitmap_get_bit (bitmap_set_bits mem bbegin bend) i =
      (bitmap_get_bit mem i || decide (bbegin ≤ i ∧ i < bend)) := by
  intro i
  have hdivle : bbegin / 32 ≤ bend / 32 := Nat.div_le_div_right hle
  simp only [bitmap_set_bits]
  by_cases hw : bbegin / 32 < bend / 32
  · rw [if_pos hw]
    have hmem1 : ∀ k, word_set mem (bbegin / 32)
        (word_get mem (bbegin / 32) ||| compl32 (fillLSBs (bbegin % 32))) k < 256 :=
      word_set_lt mem hmem _ _
    have hmem2 : ∀ k, fill_words
        (word_set mem (bbegin / 32)
          (word_get mem (bbegin / 32) ||| compl32 (fillLSBs (bbegin % 32))))
        (bbegin / 32 + 1) (bend / 32 - (bbegin / 32 + 1)) k < 256 :=
      fill_words_lt _ _ _ hmem1
    rw [word_set_get_bit]
    by_cases hreg3 : 32 * (bend / 32) ≤ i ∧ i < 32 * (bend / 32) + 32
    · rw [if_pos hreg3, Nat.testBit_lor,
        word_get_testBit _ hmem2 _ _ (by omega), fillLSBs_testBit,
        show 32 * (bend / 32) + (i - 32 * (bend / 32)) = i from by omega,
        fill_words_get_bit, if_neg (by omega), word_set_get_bit, if_neg (by omega)]
      congr 1
      exact decide_eq_decide.mpr (by omega)
    · rw [if_neg hreg3, fill_words_get_bit]
      by_cases hreg2 : 32 * (bbegin / 32 + 1) ≤ i ∧
          i < 32 * ((bbegin / 32 + 1) + (bend / 32 - (bbegin / 32 + 1)))
      · rw [if_pos hreg2]
        have hP : bbegin ≤ i ∧ i < bend := by omega
        simp [hP]
      · rw [if_neg hreg2, word_set_get_bit]
        by_cases hreg1 : 32 * (bbegin / 32) ≤ i ∧ i < 32 * (bbegin / 32) + 32
        · rw [if_pos hreg1, Nat.testBit_lor,
            word_get_testBit mem hmem _ _ (by omega), compl32_testBit,
            fillLSBs_testBit,
            show 32 * (bbegin / 32) + (i - 32 * (bbegin / 32)) = i from by omega,
            decide_eq_true (show i - 32 * (bbegin / 32) < 32 from by omega),
            Bool.xor_true]
          congr 1
          rw [← decide_not]
          exact decide_eq_decide.mpr (by omega)
        · rw [if_neg hreg1, decide_eq_false (by omega)]
          simp
  · have hweq : bbegin / 32 = bend / 32 := by omega
    rw [if_neg hw, if_pos hweq, word_set_get_bit]
    by_cases hreg : 32 * (bbegin / 32) ≤ i ∧ i < 32 * (bbegin / 32) + 32
    · rw [if_pos hreg, Nat.testBit_lor, Nat.testBit_land,
        word_get_testBit mem hmem _ _ (by omega), compl32_testBit,
        fillLSBs_testBit, fillLSBs_testBit,
        show 32 * (bbegin / 32) + (i - 32 * (bbegin / 32)) = i from by omega,
        decide_eq_true (show i - 32 * (bbegin / 32) < 32 from by omega),
        Bool.xor_true]
      congr 1
      rw [← decide_not, ← Bool.decide_and]
      exact decide_eq_decide.mpr (by omega)
    · rw [if_neg hreg, decide_eq_false (by omega)]
      simp

theorem bitmap_set_bits_lt (mem : Nat → Nat) (hmem : ∀ k, mem k < 256)
    (bbegin bend : Nat) : ∀ k, bitmap_set_bits mem bbegin bend k < 256 := by
  intro k
  simp only [bitmap_set_bits]
  split
  · exact word_set_lt _ (fill_words_lt _ _ _ (word_set_lt _ hmem _ _)) _ _ k
  · split
    · exact word_set_lt _ hmem _ _ k
    · exact hmem k

/-- C10: for all bit indices bbegin ≤ bend into a byte-array bitmap, the
word-segment implementation bitmap_set_bits sets exactly the bits of the
half-open range [bbegin, bend) and leaves every other bit unchanged, and
it is pointwise equal (byte for byte) to the naive loop that applies
bitmap_set_bit to every index from bbegin to bend - 1. -/
theorem bitmap_set_bits_spec (mem : Nat → Nat) (hmem : ∀ k, mem k < 256)
    (bbegin bend : Nat) (hle : bbegin ≤ bend) :
    (∀ i, bitmap_get_bit (bitmap_set_bits mem bbegin bend) i =
      (bitmap_get_bit mem i || decide (bbegin ≤ i ∧ i < bend))) ∧
    (∀ k, bitmap_set_bits mem bbegin bend k =
      bitmap_set_bits_loop mem bbegin (bend - bbegin) k) := by
  refine ⟨bitmap_set_bits_get mem hmem bbegin bend hle, ?_⟩
  intro k
  apply Nat.eq_of_testBit_eq
  intro n
  by_cases hn : n < 8
  · have e1 : (bitmap_set_bits mem bbegin bend k).testBit n =
        bitmap_get_bit (bitmap_set_bits mem bbegin bend) (8 * k + n) := by
      unfold bitmap_get_bit
      rw [show (8 * k + n) / 8 = k from by omega,
        show (8 * k + n) % 8 = n from by omega]
    have e2 : (bitmap_set_bits_loop mem bbegin (bend - bbegin) k).testBit n =
        bitmap_get_bit (bitmap_set_bits_loop mem bbegin (bend - bbegin)) (8 * k + n) := by
      unfold bitmap_get_bit
      rw [show (8 * k + n) / 8 = k from by omega,
        show (8 * k + n) % 8 = n from by omega]
    rw [e1, e2, bitmap_set_bits_get mem hmem bbegin bend hle,
      bitmap_set_bits_loop_get]
    congr 1
    exact decide_eq_decide.mpr (by omega)
  · have h1 : bitmap_set_bits mem bbegin bend k < 2 ^ n := by
      calc bitmap_set_bits mem bbegin bend k
          < 256 := bitmap_set_bits_lt mem hmem bbegin bend k
        _ = 2 ^ 8 := by norm_num
        _ ≤ 2 ^ n := Nat.pow_le_pow_right (by norm_num) (by omega)
    have h2 : bitmap_set_bits_loop mem bbegin (bend - bbegin) k < 2 ^ n := by
      calc bitmap_set_bits_loop mem bbegin (bend - bbegin) k
          < 256 := bitmap_set_bits_loop_lt _ _ _ hmem k
        _ = 2 ^ 8 := by norm_num
        _ ≤ 2 ^ n := Nat.pow_le_pow_right (by norm_num) (by omega)
    rw [Nat.testBit_lt_two_pow h1, Nat.testBit_lt_two_pow h2]

/-- Witness for C10 on the all-zero bitmap with range [5, 70): the range
spans a partial first segment, one full segment and a partial last
segment, and the resulting bytes match the naive loop. -/
theorem bitmap_set_bits_spec_witness :
    ((5 : Nat) ≤ 70) ∧
    bitmap_set_bits (fun _ => 0) 5 70 0 = 224 ∧
    bitmap_set_bits (fun _ => 0) 5 70 4 = 255 ∧
    bitmap_set_bits (fun _ => 0) 5 70 8 = 63 ∧
    bitmap_set_bits (fun _ => 0) 5 70 9 = 0 ∧
    (∀ i, bitmap_get_bit (bitmap_set_bits (fun _ => 0) 5 70) i =
      (bitmap_get_bit (fun _ => 0) i || decide (5 ≤ i ∧ i < 70))) ∧
    (∀ k, bitmap_set_bits (fun _ => 0) 5 70 k =
      bitmap_set_bits_loop (fun _ => 0) 5 (70 - 5) k) := by
  obtain ⟨h1, h2⟩ :=
    bitmap_set_bits_spec (fun _ => 0) (fun k => by norm_num) 5 70 (by decide)
  exact ⟨by decide, by decide, by decide, by decide, by decide, h1, h2⟩

/-! ## C1: every recorded extent is either outside all blocked extents or
relocated to freshly allocated clusters with the data copied -/

theorem is_free_iff (a : extent_allocator) (c : Nat) :
    is_free a c = true ↔ a.bitmap c = false := by
  unfold is_free
  cases h : a.bitmap c <;> simp

/-- How the traversal state may change across resettling: the blocked
extents are fixed, the cursor only advances, used bits stay used, and the
disk is only written at clusters beyond the starting cursor that were free
at the start; the output stream only grows. -/
def trav_evolves (s0 s1 : trav_state) : Prop :=
  s1.alloc.blocked_extents = s0.alloc.blocked_extents ∧
  s1.alloc.blocked_extent_count = s0.alloc.blocked_extent_count ∧
  s0.alloc.index_in_fat ≤ s1.alloc.index_in_fat ∧
  (∀ c, s0.alloc.bitmap c = true → s1.alloc.bitmap c = true) ∧
  (∀ c, c ≤ s0.alloc.index_in_fat → s1.disk c = s0.disk c) ∧
  (∀ c, s0.alloc.bitmap c = true → s1.disk c = s0.disk c) ∧
  ∃ tail, s1.out = s0.out ++ tail

theorem trav_evolves_refl (s : trav_state) : trav_evolves s s :=
  ⟨rfl, rfl, Nat.le_refl _, fun _ h => h, fun _ _ => rfl, fun _ _ => rfl,
    ⟨[], by simp⟩⟩

theorem trav_evolves_trans {s0 s1 s2 : trav_state}
    (h1 : trav_evolves s0 s1) (h2 : trav_evolves s1 s2) : trav_evolves s0 s2 := by
  obtain ⟨hb1, hc1, hi1, hm1, hd1, hu1, t1, ht1⟩ := h1
  obtain ⟨hb2, hc2, hi2, hm2, hd2, hu2, t2, ht2⟩ := h2
  refine ⟨hb2.trans hb1, hc2.trans hc1, Nat.le_trans hi1 hi2,
    fun c h => hm2 c (hm1 c h), ?_, ?_, ⟨t1 ++ t2, by rw [ht2, ht1]; simp⟩⟩
  · intro c hc
    rw [hd2 c (Nat.le_trans hc hi1), hd1 c hc]
  · intro c hc
    rw [hu2 c (hm1 c hc), hu1 c hc]

/-- Fragment verdict of the relocation pass, relative to the state st at
which find_blocked_extent_fragments was entered for input, with final
state st2: the recorded extent either lies entirely outside every real
blocked extent (the sentinel at index blocked_extent_count is not a
blocked region), or all its clusters were freshly allocated (free at
entry, outside all blocked extents, used on exit) and its data was copied
from the input fragment it logically replaces. -/
def fragment_ok (st : trav_state) (input : fat_extent) (st2 : trav_state)
    (e : fat_extent) : Prop :=
  (∀ j, j < st.alloc.blocked_extent_count →
    e.physical_start + e.length ≤ (bext st.alloc.blocked_extents j).physical_start ∨
    (bext st.alloc.blocked_extents j).physical_start +
      (bext st.alloc.blocked_extents j).length ≤ e.physical_start) ∨
  (input.logical_start ≤ e.logical_start ∧
   e.logical_start - input.logical_start + e.length ≤ input.length ∧
   (∀ k, k < e.length →
    st.alloc.bitmap (e.physical_start + k) = false ∧
    st2.alloc.bitmap (e.physical_start + k) = true ∧
    outside_all_blocked st.alloc.blocked_extents (e.physical_start + k)) ∧
   (∀ k, k < e.length →
    st2.disk (e.physical_start + k) =
      st.disk (input.physical_start + (e.logical_start - input.logical_start) + k)))


theorem copy_clusters_in (disk : Nat → Nat) (dst src n c : Nat)
    (h : dst ≤ c ∧ c < dst + n) :
    copy_clusters disk dst src n c = disk (src + (c - dst)) := by
  unfold copy_clusters
  rw [if_pos h]

theorem copy_clusters_out (disk : Nat → Nat) (dst src n c : Nat)
    (h : ¬ (dst ≤ c ∧ c < dst + n)) :
    copy_clusters disk dst src n c = disk c := by
  unfold copy_clusters
  rw [if_neg h]

theorem resettle_loop_spec (fuel : Nat) :
    ∀ afuel input i st st2,
      alloc_wf st.alloc →
      (∀ k, k < input.length → st.alloc.bitmap (input.physical_start + k) = true) →
      resettle_loop afuel input fuel i st = some st2 →
      alloc_wf st2.alloc ∧ trav_evolves st st2 ∧
      ∀ e ∈ st2.out.drop st.out.length,
        input.logical_start ≤ e.logical_start ∧
        e.logical_start - input.logical_start + e.length ≤ input.length ∧
        e.physical_start + e.length ≤ st2.alloc.index_in_fat + 1 ∧
        ∀ k, k < e.length →
          st.alloc.bitmap (e.physical_start + k) = false ∧
          st2.alloc.bitmap (e.physical_start + k) = true ∧
          outside_all_blocked st.alloc.blocked_extents (e.physical_start + k) ∧
          st2.disk (e.physical_start + k) =
            st.disk (input.physical_start + (e.logical_start - input.logical_start) + k) := by
  induction fuel with
  | zero =>
    intro afuel input i st st2 hwf hused h
    simp [resettle_loop] at h
  | succ fuel ih =>
    intro afuel input i st st2 hwf hused h
    simp only [resettle_loop] at h
    split at h
    · rename_i hi
      cases hr : allocate_extent afuel (input.length - i) st.alloc with
      | none => rw [hr] at h; exact absurd h (by simp)
      | some q =>
        obtain ⟨frag0, alloc2⟩ := q
        rw [hr] at h
        have hrec : resettle_loop afuel input fuel (i + frag0.length)
            { alloc := alloc2
              disk := copy_clusters st.disk frag0.physical_start
                (input.physical_start + i) frag0.length
              out := st.out ++ [{ frag0 with logical_start := input.logical_start + i }] }
            = some st2 := h
        set stn : trav_state :=
          { alloc := alloc2
            disk := copy_clusters st.disk frag0.physical_start
              (input.physical_start + i) frag0.length
            out := st.out ++ [{ frag0 with logical_start := input.logical_start + i }] }
          with hstn
        have hsa : stn.alloc = alloc2 := rfl
        have hsd : stn.disk = copy_clusters st.disk frag0.physical_start
            (input.physical_start + i) frag0.length := rfl
        have hso : stn.out = st.out ++
            [{ frag0 with logical_start := input.logical_start + i }] := rfl
        obtain ⟨hls0, hlen1, hmaxlen, hwf2, hbl2, hct2, hlt2, hmono2, hend2,
          hclust2, hbm2⟩ := allocate_extent_master afuel (input.length - i)
            st.alloc frag0 alloc2 hwf hr
        have hlenle : frag0.length ≤ input.length - i := hmaxlen (by omega)
        have hmono_bm : ∀ c, st.alloc.bitmap c = true → alloc2.bitmap c = true := by
          intro c hc
          rw [hbm2 c]
          split
          · rfl
          · exact hc
        have hev1 : trav_evolves st stn := by
          refine ⟨hbl2, hct2, hmono2, hmono_bm, ?_, ?_, ⟨_, hso⟩⟩
          · intro c hc
            rw [hsd, copy_clusters_out]
            omega
          · intro c hc
            rw [hsd, copy_clusters_out]
            intro hcon
            have hfb : st.alloc.bitmap c = false :=
              (is_free_iff st.alloc c).mp (hclust2 c hcon.1 hcon.2).1
            rw [hc] at hfb
            exact Bool.noConfusion hfb
        obtain ⟨hwf3, hev2, hfr⟩ := ih afuel input (i + frag0.length) stn st2
          (by rw [hsa]; exact hwf2)
          (by rw [hsa]; exact fun k hk => hmono_bm _ (hused k hk)) hrec
        refine ⟨hwf3, trav_evolves_trans hev1 hev2, ?_⟩
        obtain ⟨hb2e, hc2e, hi2e, hm2e, hd2e, hu2e, tail2, htail2⟩ := hev2
        rw [hsa] at hi2e hm2e hd2e
        have hout : st2.out.drop st.out.length =
            { frag0 with logical_start := input.logical_start + i } :: tail2 := by
          rw [htail2, hso, List.append_assoc, List.drop_left]
          rfl
        have houtn : st2.out.drop stn.out.length = tail2 := by
          rw [htail2, List.drop_left]
        intro e he
        rw [hout] at he
        rcases List.mem_cons.mp he with rfl | he
        · have hps : ({ frag0 with logical_start := input.logical_start + i } :
              fat_extent).physical_start = frag0.physical_start := rfl
          have hlsx : ({ frag0 with logical_start := input.logical_start + i } :
              fat_extent).logical_start = input.logical_start + i := rfl
          have hlnx : ({ frag0 with logical_start := input.logical_start + i } :
              fat_extent).length = frag0.length := rfl
          simp only [hps, hlsx, hlnx]
          refine ⟨by omega, by omega, by omega, ?_⟩
          intro k hk
          have hcl := hclust2 (frag0.physical_start + k) (by omega) (by omega)
          refine ⟨(is_free_iff st.alloc _).mp hcl.1, ?_, hcl.2, ?_⟩
          · refine hm2e _ ?_
            have hcond : frag0.physical_start ≤ frag0.physical_start + k ∧
                frag0.physical_start + k < frag0.physical_start + frag0.length := by
              omega
            rw [hbm2, if_pos hcond]
          · rw [show input.logical_start + i - input.logical_start = i from by omega]
            rw [hd2e _ (by omega), hsd,
              copy_clusters_in _ _ _ _ _ ⟨by omega, by omega⟩,
              show frag0.physical_start + k - frag0.physical_start = k from by omega]
        · obtain ⟨hle1, hle2, hend3, hk3⟩ := hfr e (by rw [houtn]; exact he)
          refine ⟨hle1, hle2, hend3, ?_⟩
          intro k hk
          obtain ⟨hf3, hu3, ho3, hd3⟩ := hk3 k hk
          rw [hsa] at hf3
          rw [hsa, hbl2] at ho3
          refine ⟨?_, hu3, ho3, ?_⟩
          · cases hb : st.alloc.bitmap (e.physical_start + k) with
            | false => rfl
            | true =>
              have hx := hmono_bm _ hb
              rw [hf3] at hx
              exact Bool.noConfusion hx
          · rw [hd3]
            obtain ⟨_, _, _, _, _, hu1e, _⟩ := hev1
            have hm : e.logical_start - input.logical_start + k < input.length := by
              omega
            have hy := hused (e.logical_start - input.logical_start + k) hm
            rw [← Nat.add_assoc] at hy
            exact hu1e _ hy
    · simp only [Option.some.injEq] at h
      subst h
      exact ⟨hwf, trav_evolves_refl st, by simp⟩

theorem blocked_chain_pEnd_mono (l : List fat_extent) (hc : blocked_chain l) :
    ∀ i j, i ≤ j → j < l.length →
      (bext l i).physical_start + (bext l i).length ≤
        (bext l j).physical_start + (bext l j).length := by
  intro i j hij hj
  rcases Nat.eq_or_lt_of_le hij with rfl | hlt
  · exact Nat.le_refl _
  · have := blocked_chain_pEnd_le_ps l hc j i hlt hj
    omega

/-- The binary search of find_first_blocked_extent computes a lower bound:
every blocked extent strictly before the result ends strictly before
physical_address, and the extent at the result (when below count) does not. -/
theorem ffbe_go_spec (l : List fat_extent) (pa count : Nat)
    (hc : blocked_chain l) (hcount : count < l.length) :
    ∀ fuel b e, b ≤ e → e ≤ count → e - b ≤ fuel →
      (∀ j, j < b → (bext l j).physical_start + (bext l j).length < pa) →
      (∀ j, e ≤ j → j < count →
        pa ≤ (bext l j).physical_start + (bext l j).length) →
      ffbe_go l pa fuel b e ≤ count ∧
      (∀ j, j < ffbe_go l pa fuel b e →
        (bext l j).physical_start + (bext l j).length < pa) ∧
      (ffbe_go l pa fuel b e < count →
        pa ≤ (bext l (ffbe_go l pa fuel b e)).physical_start +
          (bext l (ffbe_go l pa fuel b e)).length) := by
  intro fuel
  induction fuel with
  | zero =>
    intro b e hbe hec hgap hpre hpost
    have hb : b = e := by omega
    subst hb
    simp only [ffbe_go]
    exact ⟨hec, hpre, fun hr => hpost _ (Nat.le_refl _) hr⟩
  | succ fuel ih =>
    intro b e hbe hec hgap hpre hpost
    simp only [ffbe_go]
    by_cases hlt : b < e
    · rw [if_pos hlt]
      have hmide : (b + e) / 2 < e := by omega
      by_cases hmid : (l.getD ((b + e) / 2) ⟨0, 0, 0⟩).physical_start +
          (l.getD ((b + e) / 2) ⟨0, 0, 0⟩).length < pa
      · rw [if_pos hmid]
        have hmid' : (bext l ((b + e) / 2)).physical_start +
            (bext l ((b + e) / 2)).length < pa := hmid
        refine ih ((b + e) / 2 + 1) e (by omega) hec (by omega) ?_ hpost
        intro j hj
        rcases Nat.lt_or_ge j b with h1 | h2
        · exact hpre j h1
        · have hmono := blocked_chain_pEnd_mono l hc j ((b + e) / 2)
            (by omega) (by omega)
          omega
      · rw [if_neg hmid]
        have hmid' : pa ≤ (bext l ((b + e) / 2)).physical_start +
            (bext l ((b + e) / 2)).length := by
          have : ¬ ((bext l ((b + e) / 2)).physical_start +
              (bext l ((b + e) / 2)).length < pa) := hmid
          omega
        refine ih b ((b + e) / 2) (by omega) (by omega) (by omega) hpre ?_
        intro j hj1 hj2
        have hmono := blocked_chain_pEnd_mono l hc ((b + e) / 2) j hj1 (by omega)
        omega
    · rw [if_neg hlt]
      have hb : b = e := by omega
      subst hb
      exact ⟨hec, hpre, fun hr => hpost _ (Nat.le_refl _) hr⟩

/-- Invariant tying the loop index i and the candidate blocked extent be of
find_blocked_extent_fragments to the fragment start fps: every blocked
extent strictly before the candidate has been passed, and the candidate
(when present) is the blocked extent at index i - 1 and has not been
passed. When the candidate is exhausted, either all real blocked extents
have been passed, or the next one begins beyond input_physical_end. -/
def be_inv (l : List fat_extent) (count ipe fps i : Nat) :
    Option fat_extent → Prop
  | some b => ∃ ib, i = ib + 1 ∧ ib < count ∧ b = bext l ib ∧
      fps ≤ (bext l ib).physical_start + (bext l ib).length ∧
      ∀ j, j < ib → (bext l j).physical_start + (bext l j).length ≤ fps
  | none =>
      (count ≤ i ∧ ∀ j, j < count →
        (bext l j).physical_start + (bext l j).length ≤ fps) ∨
      (∃ ib, i = ib + 1 ∧ ib < count ∧ ipe < (bext l ib).physical_start ∧
        ∀ j, j < ib → (bext l j).physical_start + (bext l j).length ≤ fps)

theorem blocked_chain_ps_mono (l : List fat_extent) (hc : blocked_chain l) :
    ∀ i j, i ≤ j → j < l.length →
      (bext l i).physical_start ≤ (bext l j).physical_start := by
  intro i j hij hj
  rcases Nat.eq_or_lt_of_le hij with rfl | hlt
  · exact Nat.le_refl _
  · have := blocked_chain_pEnd_le_ps l hc j i hlt hj
    omega

set_option maxHeartbeats 1000000 in
theorem fbef_loop_spec (fuel : Nat) :
    ∀ afuel input fps i be st st2,
      alloc_wf st.alloc →
      (∀ k, k < input.length → st.alloc.bitmap (input.physical_start + k) = true) →
      input.physical_start ≤ fps →
      (fps < input.physical_start + input.length →
        be_inv st.alloc.blocked_extents st.alloc.blocked_extent_count
          (input.physical_start + input.length) fps i be) →
      fbef_loop afuel input fuel fps (input.physical_start + input.length) i be st
        = some st2 →
      alloc_wf st2.alloc ∧ trav_evolves st st2 ∧
      ∀ e ∈ st2.out.drop st.out.length, fragment_ok st input st2 e := by
  induction fuel with
  | zero =>
    intro afuel input fps i be st st2 hwf hused hfps hinv h
    simp [fbef_loop] at h
  | succ fuel ih =>
    intro afuel input fps i be st st2 hwf hused hfps hinv h
    have hchain := hwf.1
    have hlen := hwf.2.1
    simp only [fbef_loop] at h
    split at h
    · split at h
      · split at h
        · -- the fragment starts inside the candidate blocked extent: resettle it
          rename_i hguard be0 b hble
          have hinv0 := hinv hguard
          simp only [be_inv] at hinv0
          obtain ⟨ib, hib1, hib2, hib3, hib4, hib5⟩ := hinv0
          have hbpe : b.physical_start + b.length =
              (bext st.alloc.blocked_extents ib).physical_start +
                (bext st.alloc.blocked_extents ib).length := by
            rw [hib3]
          set fpe : Nat :=
            if b.physical_start + b.length < input.physical_start + input.length
            then b.physical_start + b.length
            else input.physical_start + input.length with hfpe
          have hfpe1 : fps ≤ fpe := by rw [hfpe]; split <;> omega
          have hfpe2 : fpe ≤ input.physical_start + input.length := by
            rw [hfpe]; split <;> omega
          have hfpe3 : fpe ≤ b.physical_start + b.length := by
            rw [hfpe]; split <;> omega
          have hfpe4 : fpe < input.physical_start + input.length →
              fpe = b.physical_start + b.length := by
            rw [hfpe]; split <;> omega
          set frg : fat_extent :=
            { logical_start := input.logical_start + (fps - input.physical_start),
              length := fpe - fps, physical_start := fps } with hfrg
          set nxt := find_next_blocked_extent st.alloc.blocked_extents
            st.alloc.blocked_extent_count i (input.physical_start + input.length)
            with hnxt
          split at h
          · exact absurd h (by simp)
          · rename_i st_res heq
            have heq' : resettle_loop afuel frg (fpe - fps + 1) 0 st = some st_res := heq
            have hfrglen : frg.length = fpe - fps := by rw [hfrg]
            have hfrgps : frg.physical_start = fps := by rw [hfrg]
            have hfrgls : frg.logical_start =
                input.logical_start + (fps - input.physical_start) := by rw [hfrg]
            have husedf : ∀ k, k < frg.length →
                st.alloc.bitmap (frg.physical_start + k) = true := by
              intro k hk
              rw [hfrgps]
              rw [hfrglen] at hk
              have hy := hused (fps - input.physical_start + k) (by omega)
              rw [show input.physical_start + (fps - input.physical_start + k) =
                  fps + k from by omega] at hy
              exact hy
            obtain ⟨hwfr, hevr, hfrr⟩ :=
              resettle_loop_spec (fpe - fps + 1) afuel frg 0 st st_res hwf husedf heq'
            obtain ⟨hevrb, hevrc, hevri, hevrm, hevrd, hevru, tailr, htailr⟩ := hevr
            have hevr' : trav_evolves st st_res :=
              ⟨hevrb, hevrc, hevri, hevrm, hevrd, hevru, tailr, htailr⟩
            have hused' : ∀ k, k < input.length →
                st_res.alloc.bitmap (input.physical_start + k) = true :=
              fun k hk => hevrm _ (hused k hk)
            have hinv' : fpe < input.physical_start + input.length →
                be_inv st_res.alloc.blocked_extents st_res.alloc.blocked_extent_count
                  (input.physical_start + input.length) fpe nxt.2 nxt.1 := by
              intro hg
              have hfpeb := hfpe4 hg
              rw [hevrb, hevrc, hnxt]
              by_cases hci : st.alloc.blocked_extent_count ≤ i
              · simp only [find_next_blocked_extent, if_pos hci]
                simp only [be_inv]
                refine Or.inl ⟨hci, ?_⟩
                intro j hj
                have hj' : j < ib ∨ j = ib := by omega
                rcases hj' with h1 | rfl
                · have := hib5 j h1
                  omega
                · omega
              · have hic : i < st.alloc.blocked_extent_count := by omega
                by_cases hpeek : input.physical_start + input.length <
                    (st.alloc.blocked_extents.getD i ⟨0, 0, 0⟩).physical_start
                · simp only [find_next_blocked_extent, if_neg hci, if_pos hpeek]
                  simp only [be_inv]
                  refine Or.inr ⟨i, rfl, hic, hpeek, ?_⟩
                  intro j hj
                  have hj' : j < ib ∨ j = ib := by omega
                  rcases hj' with h1 | rfl
                  · have := hib5 j h1
                    omega
                  · omega
                · simp only [find_next_blocked_extent, if_neg hci, if_neg hpeek]
                  simp only [be_inv]
                  refine ⟨i, rfl, hic, rfl, ?_, ?_⟩
                  · have hch := hchain ib (by omega)
                    rw [hib1]
                    omega
                  · intro j hj
                    have hj' : j < ib ∨ j = ib := by omega
                    rcases hj' with h1 | rfl
                    · have := hib5 j h1
                      omega
                    · omega
            obtain ⟨hwf2, hev2, hfr⟩ := ih afuel input fpe nxt.2 nxt.1 st_res st2
              hwfr hused' (by omega) hinv' h
            refine ⟨hwf2, trav_evolves_trans hevr' hev2, ?_⟩
            obtain ⟨hb2e, hc2e, hi2e, hm2e, hd2e, hu2e, tail2, htail2⟩ := hev2
            have hout : st2.out.drop st.out.length = tailr ++ tail2 := by
              rw [htail2, htailr, List.append_assoc, List.drop_left]
            have houtr : st_res.out.drop st.out.length = tailr := by
              rw [htailr, List.drop_left]
            have houtn : st2.out.drop st_res.out.length = tail2 := by
              rw [htail2, List.drop_left]
            intro e he
            rw [hout] at he
            rcases List.mem_append.mp he with he1 | he2
            · obtain ⟨hle1, hle2, hend3, hk3⟩ := hfrr e (by rw [houtr]; exact he1)
              rw [hfrgls] at hle1
              rw [hfrgls, hfrglen] at hle2
              unfold fragment_ok
              refine Or.inr ⟨by omega, by omega, ?_, ?_⟩
              · intro k hk
                obtain ⟨hf3, hu3, ho3, _⟩ := hk3 k hk
                exact ⟨hf3, hm2e _ hu3, ho3⟩
              · intro k hk
                obtain ⟨_, _, _, hd3⟩ := hk3 k hk
                rw [hd2e _ (by omega), hd3, hfrgps, hfrgls]
                rw [show fps + (e.logical_start -
                    (input.logical_start + (fps - input.physical_start))) + k =
                    input.physical_start +
                      (e.logical_start - input.logical_start) + k from by omega]
            · have hx := hfr e (by rw [houtn]; exact he2)
              unfold fragment_ok at hx ⊢
              rcases hx with hA | ⟨hB1, hB2, hB3, hB4⟩
              · refine Or.inl ?_
                rw [hevrb, hevrc] at hA
                exact hA
              · refine Or.inr ⟨hB1, hB2, ?_, ?_⟩
                · intro k hk
                  obtain ⟨hf4, hu4, ho4⟩ := hB3 k hk
                  refine ⟨?_, hu4, ?_⟩
                  · cases hbq : st.alloc.bitmap (e.physical_start + k) with
                    | false => rfl
                    | true =>
                      have hxq := hevrm _ hbq
                      rw [hf4] at hxq
                      exact Bool.noConfusion hxq
                  · rw [← hevrb]
                    exact ho4
                · intro k hk
                  have hd4 := hB4 k hk
                  rw [hd4]
                  have hy := hused (e.logical_start - input.logical_start + k) (by omega)
                  rw [← Nat.add_assoc] at hy
                  exact hevru _ hy
        · -- the fragment ends where the candidate blocked extent begins
          rename_i hguard be0 b hble
          have hfg : fps < b.physical_start := Nat.lt_of_not_le hble
          set frg : fat_extent :=
            { logical_start := input.logical_start + (fps - input.physical_start),
              length := b.physical_start - fps, physical_start := fps } with hfrg
          set stn : trav_state :=
            { alloc := st.alloc, disk := st.disk, out := st.out ++ [frg] } with hstn
          have hsa : stn.alloc = st.alloc := by rw [hstn]
          have hsd : stn.disk = st.disk := by rw [hstn]
          have hso : stn.out = st.out ++ [frg] := by rw [hstn]
          have hpsx : frg.physical_start = fps := by rw [hfrg]
          have hlnx : frg.length = b.physical_start - fps := by rw [hfrg]
          have hinv0 := hinv hguard
          simp only [be_inv] at hinv0
          obtain ⟨ib, hib1, hib2, hib3, hib4, hib5⟩ := hinv0
          have hinv' : b.physical_start < input.physical_start + input.length →
              be_inv stn.alloc.blocked_extents stn.alloc.blocked_extent_count
                (input.physical_start + input.length) b.physical_start i (some b) := by
            intro hg
            rw [hsa]
            simp only [be_inv]
            refine ⟨ib, hib1, hib2, hib3, ?_, ?_⟩
            · rw [← hib3]
              omega
            · intro j hj
              have := hib5 j hj
              omega
          have hev1 : trav_evolves st stn :=
            ⟨by rw [hsa], by rw [hsa], by rw [hsa],
             fun c hc => by rw [hsa]; exact hc,
             fun c _ => by rw [hsd], fun c _ => by rw [hsd], ⟨[frg], hso⟩⟩
          obtain ⟨hwf2, hev2, hfr⟩ := ih afuel input b.physical_start i (some b) stn st2
            (by rw [hsa]; exact hwf) (by rw [hsa]; exact hused) (by omega) hinv' h
          refine ⟨hwf2, trav_evolves_trans hev1 hev2, ?_⟩
          obtain ⟨_, _, _, _, _, _, tail2, htail2⟩ := hev2
          have hout : st2.out.drop st.out.length = frg :: tail2 := by
            rw [htail2, hso, List.append_assoc, List.drop_left]
            rfl
          have houtn : st2.out.drop stn.out.length = tail2 := by
            rw [htail2, List.drop_left]
          intro e he
          rw [hout] at he
          rcases List.mem_cons.mp he with rfl | he
          · unfold fragment_ok
            refine Or.inl ?_
            intro j hj
            rcases Nat.lt_or_ge j ib with h1 | h2
            · exact Or.inr (by rw [hpsx]; exact hib5 j h1)
            · refine Or.inl ?_
              have hpm := blocked_chain_ps_mono st.alloc.blocked_extents hchain ib j h2
                (by omega)
              have hps2 : b.physical_start =
                  (bext st.alloc.blocked_extents ib).physical_start := by
                rw [hib3]
              rw [hpsx, hlnx]
              omega
          · have hx := hfr e (by rw [houtn]; exact he)
            unfold fragment_ok at hx ⊢
            rw [hsa, hsd] at hx
            exact hx
      · -- no blocked extent candidate remains: one final fragment
        rename_i hguard be0
        set frg : fat_extent :=
          { logical_start := input.logical_start + (fps - input.physical_start),
            length := input.physical_start + input.length - fps,
            physical_start := fps } with hfrg
        set stn : trav_state :=
          { alloc := st.alloc, disk := st.disk, out := st.out ++ [frg] } with hstn
        have hsa : stn.alloc = st.alloc := by rw [hstn]
        have hsd : stn.disk = st.disk := by rw [hstn]
        have hso : stn.out = st.out ++ [frg] := by rw [hstn]
        have hpsx : frg.physical_start = fps := by rw [hfrg]
        have hlnx : frg.length = input.physical_start + input.length - fps := by
          rw [hfrg]
        obtain ⟨hwf2, hev2, hfr⟩ := ih afuel input
          (input.physical_start + input.length) i none stn st2
          (by rw [hsa]; exact hwf) (by rw [hsa]; exact hused) (by omega)
          (fun hg => absurd hg (Nat.lt_irrefl _)) h
        have hev1 : trav_evolves st stn :=
          ⟨by rw [hsa], by rw [hsa], by rw [hsa],
           fun c hc => by rw [hsa]; exact hc,
           fun c _ => by rw [hsd], fun c _ => by rw [hsd], ⟨[frg], hso⟩⟩
        refine ⟨hwf2, trav_evolves_trans hev1 hev2, ?_⟩
        obtain ⟨_, _, _, _, _, _, tail2, htail2⟩ := hev2
        have hout : st2.out.drop st.out.length = frg :: tail2 := by
          rw [htail2, hso, List.append_assoc, List.drop_left]
          rfl
        have houtn : st2.out.drop stn.out.length = tail2 := by
          rw [htail2, List.drop_left]
        intro e he
        rw [hout] at he
        rcases List.mem_cons.mp he with rfl | he
        · unfold fragment_ok
          refine Or.inl ?_
          intro j hj
          have hinv0 := hinv hguard
          simp only [be_inv] at hinv0
          rcases hinv0 with ⟨hci, hall⟩ | ⟨ib, hib1, hib2, hib3, hib4⟩
          · exact Or.inr (by rw [hpsx]; exact hall j hj)
          · rcases Nat.lt_or_ge j ib with h1 | h2
            · exact Or.inr (by rw [hpsx]; exact hib4 j h1)
            · refine Or.inl ?_
              have hpm := blocked_chain_ps_mono st.alloc.blocked_extents hchain ib j h2
                (by omega)
              rw [hpsx, hlnx]
              omega
        · have hx := hfr e (by rw [houtn]; exact he)
          unfold fragment_ok at hx ⊢
          rw [hsa, hsd] at hx
          exact hx
    · rename_i hguard
      simp only [Option.some.injEq] at h
      subst h
      exact ⟨hwf, trav_evolves_refl st, by simp⟩

/-- C1: every fat_extent recorded by the traversal pass
(find_blocked_extent_fragments / resettle_extent) either lies entirely
outside every blocked extent, or all its clusters were freshly obtained
from allocate_extent (free before, outside every blocked extent, marked
used after) and the bytes of the original fragment were copied to the new
location (the final disk at the recorded clusters holds the input data of
the logical range the extent covers). Hypotheses: the allocator state is
well formed and the input extent's clusters are marked used in the
allocation bitmap, as the FAT traversal guarantees. -/
theorem find_blocked_extent_fragments_invariant (fuel afuel : Nat)
    (input : fat_extent) (st st2 : trav_state)
    (hwf : alloc_wf st.alloc)
    (hused : ∀ k, k < input.length →
      st.alloc.bitmap (input.physical_start + k) = true)
    (h : find_blocked_extent_fragments fuel afuel input st = some st2) :
    ∀ e ∈ st2.out.drop st.out.length, fragment_ok st input st2 e := by
  simp only [find_blocked_extent_fragments] at h
  have hchain := hwf.1
  have hlen := hwf.2.1
  have hcount : st.alloc.blocked_extent_count < st.alloc.blocked_extents.length := by
    omega
  obtain ⟨hub, hpre, hat⟩ := ffbe_go_spec st.alloc.blocked_extents
    input.physical_start st.alloc.blocked_extent_count hchain hcount
    st.alloc.blocked_extent_count 0 st.alloc.blocked_extent_count
    (Nat.zero_le _) (Nat.le_refl _) (by omega)
    (fun j hj => absurd hj (Nat.not_lt_zero j))
    (fun j hj1 hj2 => absurd hj2 (Nat.not_lt.mpr hj1))
  have hff : find_first_blocked_extent st.alloc.blocked_extents
      st.alloc.blocked_extent_count input.physical_start =
      ffbe_go st.alloc.blocked_extents input.physical_start
        st.alloc.blocked_extent_count 0 st.alloc.blocked_extent_count := rfl
  rw [← hff] at hub hpre hat
  have hinv : input.physical_start < input.physical_start + input.length →
      be_inv st.alloc.blocked_extents st.alloc.blocked_extent_count
        (input.physical_start + input.length) input.physical_start
        (find_next_blocked_extent st.alloc.blocked_extents
          st.alloc.blocked_extent_count
          (find_first_blocked_extent st.alloc.blocked_extents
            st.alloc.blocked_extent_count input.physical_start)
          (input.physical_start + input.length)).2
        (find_next_blocked_extent st.alloc.blocked_extents
          st.alloc.blocked_extent_count
          (find_first_blocked_extent st.alloc.blocked_extents
            st.alloc.blocked_extent_count input.physical_start)
          (input.physical_start + input.length)).1 := by
    intro hg
    by_cases hci : st.alloc.blocked_extent_count ≤
        find_first_blocked_extent st.alloc.blocked_extents
          st.alloc.blocked_extent_count input.physical_start
    · simp only [find_next_blocked_extent, if_pos hci]
      simp only [be_inv]
      refine Or.inl ⟨hci, ?_⟩
      intro j hj
      have := hpre j (by omega)
      omega
    · have hic : find_first_blocked_extent st.alloc.blocked_extents
          st.alloc.blocked_extent_count input.physical_start <
          st.alloc.blocked_extent_count := by omega
      by_cases hpeek : input.physical_start + input.length <
          (st.alloc.blocked_extents.getD
            (find_first_blocked_extent st.alloc.blocked_extents
              st.alloc.blocked_extent_count input.physical_start)
            ⟨0, 0, 0⟩).physical_start
      · simp only [find_next_blocked_extent, if_neg hci, if_pos hpeek]
        simp only [be_inv]
        refine Or.inr ⟨_, rfl, hic, hpeek, ?_⟩
        intro j hj
        have := hpre j hj
        omega
      · simp only [find_next_blocked_extent, if_neg hci, if_neg hpeek]
        simp only [be_inv]
        refine ⟨_, rfl, hic, rfl, hat hic, ?_⟩
        intro j hj
        have := hpre j hj
        omega
  exact (fbef_loop_spec fuel afuel input input.physical_start _ _ st st2
    hwf hused (Nat.le_refl _) hinv h).2.2

/-- A concrete traversal run exercising both verdicts: the input extent
covers clusters 3..6 while clusters 4..5 are blocked, so the pass emits the
untouched fragments at 3 and 6 and a resettled fragment relocated to the
freshly allocated clusters 1..2. -/
def c1_input : fat_extent := ⟨0, 4, 3⟩

def c1_state : trav_state :=
  { alloc :=
      { index_in_fat := 0
        blocked_extent_count := 1
        blocked_extents := [⟨0, 2, 4⟩, ⟨0, 1, 100⟩]
        blocked_idx := 0
        bitmap := fun c => decide (3 ≤ c ∧ c < 7) }
    disk := fun c => c + 1000
    out := [] }

def c1_result : trav_state :=
  (find_blocked_extent_fragments 10 10 c1_input c1_state).getD c1_state

theorem find_blocked_extent_fragments_invariant_witness :
    alloc_wf c1_state.alloc ∧
    ∀ e ∈ c1_result.out.drop c1_state.out.length,
      fragment_ok c1_state c1_input c1_result e :=
  ⟨by decide,
   find_blocked_extent_fragments_invariant 10 10 c1_input c1_state c1_result
     (by decide) (by decide) rfl⟩
